import Mathlib

/-!
# Sodium transaction engine (`sodium/transaction.h`)

A shallow embedding of the listener-registration handle
(`listen_impl_func::update_and_unlock`), the entry identifiers (`entryID`),
the transaction scheduler (`transaction_impl`) and the rank maintainer
(`node::link`), with the properties stated about them.
-/

namespace sodium
namespace impl

/-! ## `entryID` (transaction.h, lines 179-185) -/

/-- The type `rank_t` is `unsigned long`: a natural number below `2 ^ w`,
where `w` is the width of `unsigned long` on the platform. -/
abbrev rank_t := Nat

/-- `struct entryID { rank_t id; }`. -/
structure entryID where
  id : Nat
deriving DecidableEq, Repr

namespace entryID

/-- `entryID() : id(0) {}`. -/
def default : entryID := ⟨0⟩

/-- `entryID succ() const { return entryID(id+1); }` with `id+1` computed in
`unsigned long`, that is modulo `2 ^ w`. -/
def succ (w : Nat) (e : entryID) : entryID := ⟨(e.id + 1) % 2 ^ w⟩

/-- `bool operator < (const entryID& other) const { return id < other.id; }`. -/
def lt (a b : entryID) : Bool := decide (a.id < b.id)

end entryID

/-! ## `listen_impl_func` (transaction.h, lines 64-100) -/

/-- Modelled from the spec: `sodium/count_set.h` is not among the sources, so
the operations of `count_set` that `update_and_unlock` calls are taken as a
parameter: the two tests `active()` (a strong activation is in flight) and
`alive()` (the total-reference count is not zero), and the two updates
`inc_strong()` and `dec_strong()`. -/
structure count_ops (C : Type) where
  active : C → Bool
  alive : C → Bool
  inc_strong : C → C
  dec_strong : C → C

/-- Modelled from the spec: `count_set` as the spec describes it, "a pair of
counters: total outstanding references, and strong references currently
executing the activation path". -/
structure count_set where
  total : Nat
  strong : Nat
deriving DecidableEq, Repr

/-- Modelled from the spec: the operations on the pair of counters.  A strong
activation is in flight when the strong counter is not zero, the handle is
alive when the total counter is not zero, and entering (leaving) the
activation path increments (decrements) the strong counter. -/
def count_set.ops : count_ops count_set where
  active c := decide (c.strong ≠ 0)
  alive c := decide (c.total ≠ 0)
  inc_strong c := { c with strong := c.strong + 1 }
  dec_strong c := { c with strong := c.strong - 1 }

/-- What an execution of `update_and_unlock` does, in program order.  The
actions are named by values of type `A` (the pointers stored in `cleanups`). -/
inductive event (A : Type) where
  | inc_strong
  | dec_strong
  | unlock
  | lock
  | invoke (a : A)
  | delete_cleanup (a : A)
  | clear_cleanups
  | delete_func
  | delete_this
deriving DecidableEq, Repr

/-- The data members of `listen_impl_func`: `counts`, `func` (`none` is
`NULL`) and the forward list `cleanups`, together with what the method acts
on besides them: the spin lock `l` (`locked`), whether `delete this` has run
(`deleted`), whether the destructor's assertion failed (`assert_failed`), and
the record of the events so far (`log`, oldest first). -/
structure listen_impl_func (C F A : Type) where
  counts : C
  func : Option F
  cleanups : List A
  locked : Bool
  deleted : Bool
  assert_failed : Bool
  log : List (event A)

namespace listen_impl_func

variable {C F A : Type}

/-- Append one event to the record. -/
def emit (e : event A) (s : listen_impl_func C F A) : listen_impl_func C F A :=
  { s with log := s.log ++ [e] }

/-- `l->unlock()`. -/
def unlock (s : listen_impl_func C F A) : listen_impl_func C F A :=
  emit event.unlock { s with locked := false }

/-- `l->lock()`. -/
def lock (s : listen_impl_func C F A) : listen_impl_func C F A :=
  emit event.lock { s with locked := true }

/-- The body of the loop of lines 83-86: `(**it)(); delete *it;`. -/
def run_cleanup (s : listen_impl_func C F A) (a : A) : listen_impl_func C F A :=
  emit (event.delete_cleanup a) (emit (event.invoke a) s)

/-- The loop of lines 83-86 over the range `it .. cleanups.end()`.  The
cleanup actions are user code; they are taken not to touch the handle. -/
def run_cleanups (it : List A) (s : listen_impl_func C F A) : listen_impl_func C F A :=
  it.foldl run_cleanup s

/-- The events the loop of lines 83-86 records over the range `it`. -/
def loop_events (it : List A) : List (event A) :=
  it.flatMap fun a => [event.invoke a, event.delete_cleanup a]

/-- The assertion of the destructor (line 74):
`cleanups.begin() == cleanups.end() && func == NULL`. -/
def destructor_assertion (s : listen_impl_func C F A) : Bool :=
  s.cleanups.isEmpty && s.func.isNone

/-- `delete this` (line 95): runs the destructor, whose assertion is checked. -/
def delete_this (s : listen_impl_func C F A) : listen_impl_func C F A :=
  emit event.delete_this
    { s with deleted := true,
             assert_failed := s.assert_failed || !destructor_assertion s }

/-- The test of line 80: `func && !counts.active()`. -/
def guard (ops : count_ops C) (s : listen_impl_func C F A) : Bool :=
  s.func.isSome && !ops.active s.counts

/-- Lines 81-91, the body of the first `if`. -/
def cleanup_body (ops : count_ops C) (s : listen_impl_func C F A) :
    listen_impl_func C F A :=
  let s := emit event.inc_strong { s with counts := ops.inc_strong s.counts }
  let s := unlock s
  let s := run_cleanups s.cleanups s
  let s := emit event.clear_cleanups { s with cleanups := [] }
  let s := emit event.delete_func s
  let s := { s with func := none }
  let s := lock s
  emit event.dec_strong { s with counts := ops.dec_strong s.counts }

/-- Lines 80-92: the optional cleanup step. -/
def cleanup_step (ops : count_ops C) (s : listen_impl_func C F A) :
    listen_impl_func C F A :=
  if guard ops s then cleanup_body ops s else s

/-- Lines 93-98: destroy the handle when it is no longer alive. -/
def release (ops : count_ops C) (s : listen_impl_func C F A) :
    listen_impl_func C F A :=
  if !ops.alive s.counts then delete_this (unlock s) else unlock s

/-- `inline void update_and_unlock(spin_lock* l)` (lines 79-99). -/
def update_and_unlock (ops : count_ops C) (s : listen_impl_func C F A) :
    listen_impl_func C F A :=
  release ops (cleanup_step ops s)

/-- The state in which a caller enters `update_and_unlock`: the lock is held,
the handle exists, nothing has been recorded yet. -/
def entry (c : C) (f : Option F) (cs : List A) : listen_impl_func C F A :=
  { counts := c, func := f, cleanups := cs, locked := true, deleted := false,
    assert_failed := false, log := [] }

end listen_impl_func

/-- The actions invoked in a record, in order. -/
def invoked {A : Type} : List (event A) → List A
  | [] => []
  | event.invoke a :: es => a :: invoked es
  | _ :: es => invoked es

/-- Whether the lock is held after the events of a record, starting from
`held`. -/
def lock_after {A : Type} (held : Bool) : List (event A) → Bool
  | [] => held
  | event.lock :: es => lock_after true es
  | event.unlock :: es => lock_after false es
  | _ :: es => lock_after held es

/-! ## `update_and_unlock`: overlapping calls

The same method, one source line per step, so that calls by several callers
(threads, or a cleanup action calling back) can be interleaved. -/

/-- Where a caller stands: outside a call (`idle`) or before the source line
of that number.  On line 83 the iterator `it` is the range still to visit. -/
inductive pc (A : Type) where
  | idle
  | l80
  | l81
  | l82
  | l83 (it : List A)
  | l87
  | l88
  | l89
  | l90
  | l91
  | l93
  | l94
  | l95
  | l98
deriving DecidableEq, Repr

/-- What a caller records: that it took the lock and entered the method,
the outcome of the test of line 80, or an event of the method. -/
inductive mark (A : Type) where
  | call
  | test (passed : Bool)
  | did (e : event A)
deriving DecidableEq, Repr

/-- The handle, the lock, and the callers. -/
structure system (C F A : Type) where
  counts : C
  func : Option F
  cleanups : List A
  locked : Bool
  deleted : Bool
  pcs : Nat → pc A
  log : List (Nat × mark A)

namespace system

variable {C F A : Type}

/-- Caller `t` moves to `p` and records `ms`. -/
def goto (t : Nat) (p : pc A) (ms : List (mark A)) (s : system C F A) : system C F A :=
  { s with pcs := Function.update s.pcs t p, log := s.log ++ ms.map (Prod.mk t) }

/-- One step of caller `t`.  A caller that is idle takes the lock (as every
caller of `update_and_unlock` does) and enters the method; a caller waiting
for a lock that is held does not move; once the handle has been destroyed
nothing moves, since nothing is known of a destroyed handle. -/
def step (ops : count_ops C) (t : Nat) (s : system C F A) : system C F A :=
  if s.deleted then s else
  match s.pcs t with
  | pc.idle =>
    if s.locked then s else goto t pc.l80 [mark.call] { s with locked := true }
  | pc.l80 =>
    if s.func.isSome && !ops.active s.counts then goto t pc.l81 [mark.test true] s
    else goto t pc.l93 [mark.test false] s
  | pc.l81 =>
    goto t pc.l82 [mark.did event.inc_strong] { s with counts := ops.inc_strong s.counts }
  | pc.l82 =>
    goto t (pc.l83 s.cleanups) [mark.did event.unlock] { s with locked := false }
  | pc.l83 [] => goto t pc.l87 [] s
  | pc.l83 (a :: it) =>
    goto t (pc.l83 it) [mark.did (event.invoke a), mark.did (event.delete_cleanup a)] s
  | pc.l87 => goto t pc.l88 [mark.did event.clear_cleanups] { s with cleanups := [] }
  | pc.l88 => goto t pc.l89 [mark.did event.delete_func] s
  | pc.l89 => goto t pc.l90 [] { s with func := none }
  | pc.l90 =>
    if s.locked then s else goto t pc.l91 [mark.did event.lock] { s with locked := true }
  | pc.l91 =>
    goto t pc.l93 [mark.did event.dec_strong] { s with counts := ops.dec_strong s.counts }
  | pc.l93 => if !ops.alive s.counts then goto t pc.l94 [] s else goto t pc.l98 [] s
  | pc.l94 => goto t pc.l95 [mark.did event.unlock] { s with locked := false }
  | pc.l95 => goto t pc.idle [mark.did event.delete_this] { s with deleted := true }
  | pc.l98 => goto t pc.idle [mark.did event.unlock] { s with locked := false }

/-- The steps of a schedule, a list of callers, in order. -/
def run (ops : count_ops C) (sched : List Nat) (s : system C F A) : system C F A :=
  sched.foldl (fun s t => step ops t s) s

/-- The handle before any call: nobody holds the lock, every caller is idle. -/
def init (c : C) (f : Option F) (cs : List A) : system C F A :=
  { counts := c, func := f, cleanups := cs, locked := false, deleted := false,
    pcs := fun _ => pc.idle, log := [] }

end system

/-- The cleanup actions invoked in a record of marks, by any caller, in order. -/
def invoked_marks {A : Type} : List (Nat × mark A) → List A
  | [] => []
  | (_, mark.did (event.invoke a)) :: ms => a :: invoked_marks ms
  | _ :: ms => invoked_marks ms

/-- How often `func` has been deleted in a record of marks. -/
def deletions {A : Type} : List (Nat × mark A) → Nat
  | [] => 0
  | (_, mark.did event.delete_func) :: ms => deletions ms + 1
  | _ :: ms => deletions ms

/-- Whether the call caller `t` is in has passed the test of line 80: the
outcome of the last test of `t` since its last entry. -/
def passed {A : Type} (t : Nat) : List (Nat × mark A) → Bool → Bool
  | [], b => b
  | (u, mark.call) :: ms, b => passed t ms (if u = t then false else b)
  | (u, mark.test r) :: ms, b => passed t ms (if u = t then r else b)
  | _ :: ms, b => passed t ms b

namespace pc

variable {A : Type}

/-- The caller holds the lock. -/
def holds : pc A → Bool
  | l80 | l81 | l82 | l91 | l93 | l94 | l98 => true
  | _ => false

/-- The caller has incremented the strong count and not yet decremented it. -/
def marked : pc A → Bool
  | l82 | l83 _ | l87 | l88 | l89 | l90 | l91 => true
  | _ => false

/-- The caller is past the test of line 80 and before line 90. -/
def before_reset : pc A → Bool
  | l81 | l82 | l83 _ | l87 | l88 | l89 => true
  | _ => false

/-- The caller is in the loop or between the loop and line 90. -/
def started : pc A → Bool
  | l83 _ | l87 | l88 | l89 => true
  | _ => false

/-- The caller has cleared the list and not yet reset `func`. -/
def cleared : pc A → Bool
  | l88 | l89 => true
  | _ => false

/-- The caller is inside the body of the first `if`. -/
def in_body : pc A → Bool
  | l81 | l82 | l83 _ | l87 | l88 | l89 | l90 | l91 => true
  | _ => false

end pc

/-- What holds of the system after every schedule; `cs0` is the list of
cleanups before any call. -/
structure system.inv {C F A : Type} (ops : count_ops C) (cs0 : List A)
    (s : system C F A) : Prop where
  lock_held : ∀ t, (s.pcs t).holds = true → s.locked = true
  lock_excl : ∀ t u, (s.pcs t).holds = true → (s.pcs u).holds = true → t = u
  mark_excl : ∀ t u, (s.pcs t).marked = true → (s.pcs u).marked = true → t = u
  mark_active : ∀ t, (s.pcs t).marked = true → ops.active s.counts = true
  l81_inactive : ∀ t, s.pcs t = pc.l81 → ops.active s.counts = false
  func_some : ∀ t, (s.pcs t).before_reset = true → s.func.isSome = true
  iter : ∀ t it, s.pcs t = pc.l83 it → invoked_marks s.log ++ it = cs0
  fresh : s.func.isSome = true → (∀ t, (s.pcs t).started = false) →
    invoked_marks s.log = []
  list : s.func.isSome = true → (∀ t, (s.pcs t).cleared = false) → s.cleanups = cs0
  pre : invoked_marks s.log <+: cs0
  del_le : deletions s.log ≤ 1
  del_zero : s.func.isSome = true → (∀ t, s.pcs t ≠ pc.l89) → deletions s.log = 0
  passed_ok : ∀ t, (s.pcs t).in_body = true → passed t s.log false = true

/-- Whether every invocation in a record happens while the lock is not
held, starting from `held`. -/
def unlocked_invokes {A : Type} (held : Bool) : List (event A) → Bool
  | [] => true
  | event.lock :: es => unlocked_invokes true es
  | event.unlock :: es => unlocked_invokes false es
  | event.invoke _ :: es => !held && unlocked_invokes held es
  | _ :: es => unlocked_invokes held es

/-! ## `node` (transaction.h, lines 135-165)

The header declares `node::link` and `node::ensure_bigger_than`; their bodies
are in a source file that is not part of the sources at hand. -/

/-- The data members of `node` that `link` reads and writes: `rank_t rank`
and the forward list `targets`, each target being the pair of the owner tag
`h` and the target node `n`.  A node is named by its index in the graph.  The
rank is a value of `rank_t`, a natural number below `2 ^ w`; the one place
where a rank is computed, `ensure_bigger_than`, reduces modulo `2 ^ w`. -/
structure node where
  rank : rank_t
  targets : List (Nat × Nat)
deriving DecidableEq, Repr

/-- The nodes that exist, by index.  An index that is not below the length is
a null pointer. -/
abbrev graph := List node

namespace graph

/-- The rank of node `v` (`0` when `v` is no node). -/
def rank (g : graph) (v : Nat) : Nat :=
  match g[v]? with
  | some nd => nd.rank
  | none => 0

/-- The targets of node `v`. -/
def targets (g : graph) (v : Nat) : List (Nat × Nat) :=
  match g[v]? with
  | some nd => nd.targets
  | none => []

/-- `v->rank = r`. -/
def set_rank (g : graph) (v r : Nat) : graph :=
  match g[v]? with
  | some nd => g.set v { nd with rank := r }
  | none => g

/-- `v->targets.push_front(e)`. -/
def push_target (g : graph) (v : Nat) (e : Nat × Nat) : graph :=
  match g[v]? with
  | some nd => g.set v { nd with targets := e :: nd.targets }
  | none => g

/-- The invariant of the spec: for every edge `(a → b)`, `b.rank > a.rank`. -/
def rank_invariant (g : graph) : Bool :=
  (List.range g.length).all fun a =>
    (g.targets a).all fun e => decide (e.2 < g.length → g.rank a < g.rank e.2)

/-- There is an edge from `a` to `b`. -/
def edge (g : graph) (a b : Nat) : Prop := ∃ h, (h, b) ∈ g.targets a

/-- Node `b` can be reached from node `a` along edges. -/
def reach (g : graph) (a b : Nat) : Prop := Relation.ReflTransGen (edge g) a b

end graph

/-- The state of one pass of rank repair: the graph, the set `visited` of
the pass, and whether the recursion ran out of its budget (which does not
happen, see `unbounded.link_not_starved`). -/
structure pass where
  g : graph
  visited : List Nat
  starved : Bool
deriving DecidableEq, Repr

/-- Modelled from the spec: the body of `node::ensure_bigger_than(visited,
limit)` is missing.  The spec: increasing a rank "recursively visits the
target's own targets, using a visited-set to guard against cycles (... the
increase stops once it revisits an already-visited node in the same pass)".
Called on node `v`: nothing is done when `v.rank` already exceeds `limit` or
`v` was visited in this pass; otherwise `v` is marked visited, its rank becomes
`limit + 1` computed in `rank_t`, that is modulo `2 ^ w`, and each target of
`v` is made bigger than that.  Returns whether the rank of `v` was set.  The
second argument bounds the depth of the recursion. -/
def ensure_bigger_than (w : Nat) : Nat → pass → Nat → rank_t → pass × Bool
  | 0, st, _, _ => ({ st with starved := true }, false)
  | fuel + 1, st, v, limit =>
    if st.g.length ≤ v then (st, false)
    else if limit < st.g.rank v || decide (v ∈ st.visited) then (st, false)
    else
      let st1 : pass :=
        { st with g := st.g.set_rank v ((limit + 1) % 2 ^ w), visited := v :: st.visited }
      ((st.g.targets v).foldl
          (fun st e => (ensure_bigger_than w fuel st e.2 ((limit + 1) % 2 ^ w)).1) st1,
        true)

/-- The pass that `n.link(holder, target)` starts: `target` is made bigger
than the rank of `n`, with an empty visited set. -/
def link_pass (w : Nat) (g : graph) (n target : Nat) : pass × Bool :=
  ensure_bigger_than w (g.length + 1) { g := g, visited := [], starved := false }
    target (g.rank n)

/-- Modelled from the spec: the body of `node::link(holder, target)` is
missing.  The spec: it "adds an edge from self to `target_node` tagged with
`owner_tag`; returns whether the target's rank had to be increased to preserve
the invariant".  The edge is pushed to the front of the forward list
`targets` of `n`. -/
def link (w : Nat) (g : graph) (n holder target : Nat) : graph × Bool :=
  ((link_pass w g n target).1.g.push_target n (holder, target), (link_pass w g n target).2)

/-- Whether every rank of the graph is a value of `rank_t`. -/
def graph.in_range (w : Nat) (g : graph) : Bool :=
  g.all fun nd => decide (nd.rank < 2 ^ w)

/-- The pass of `ensure_bigger_than` with `limit + 1` computed in the natural
numbers, without the reduction modulo `2 ^ w`.  It is what `ensure_bigger_than`
computes as long as no rank reaches `2 ^ w` (`ensure_bigger_than_eq_unbounded`),
and serves to reason about ranks by plain arithmetic. -/
def unbounded.ensure_bigger_than : Nat → pass → Nat → Nat → pass × Bool
  | 0, st, _, _ => ({ st with starved := true }, false)
  | fuel + 1, st, v, limit =>
    if st.g.length ≤ v then (st, false)
    else if limit < st.g.rank v || decide (v ∈ st.visited) then (st, false)
    else
      let st1 : pass :=
        { st with g := st.g.set_rank v (limit + 1), visited := v :: st.visited }
      ((st.g.targets v).foldl
          (fun st e => (unbounded.ensure_bigger_than fuel st e.2 (limit + 1)).1) st1,
        true)

/-- The pass of `link` without the reduction modulo `2 ^ w`. -/
def unbounded.link_pass (g : graph) (n target : Nat) : pass × Bool :=
  unbounded.ensure_bigger_than (g.length + 1) { g := g, visited := [], starved := false }
    target (g.rank n)

/-- The call `n.link(holder, target)` without the reduction modulo `2 ^ w`. -/
def unbounded.link (g : graph) (n holder target : Nat) : graph × Bool :=
  ((unbounded.link_pass g n target).1.g.push_target n (holder, target),
    (unbounded.link_pass g n target).2)

/-- How the state of a pass changes from `st` to `st'`: the nodes and their
targets stay, ranks do not decrease, the visited set grows, and a rank changes
only at a node that gets visited, where it increases. -/
structure pass.le (st st' : pass) : Prop where
  length : st'.g.length = st.g.length
  targets : ∀ u, st'.g.targets u = st.g.targets u
  rank_mono : ∀ u, st.g.rank u ≤ st'.g.rank u
  visited_sub : ∀ x, x ∈ st.visited → x ∈ st'.visited
  rank_visited : ∀ u, u ∈ st.visited → st'.g.rank u = st.g.rank u
  rank_fresh : ∀ u, u ∉ st'.visited → st'.g.rank u = st.g.rank u
  rank_new : ∀ u, u ∈ st'.visited → u ∉ st.visited → st.g.rank u < st'.g.rank u
  starved_mono : st.starved = true → st'.starved = true

/-- What a pass guarantees for the nodes it visits between `st` and `st'`,
unless it ran out of budget: every target of such a node was visited in the
pass or has a bigger rank than the node. -/
def pass.edges_ok (st st' : pass) : Prop :=
  st'.starved = true ∨
    ∀ x, x ∈ st'.visited → x ∉ st.visited → ∀ e, e ∈ st'.g.targets x →
      e.2 < st'.g.length → e.2 ∈ st'.visited ∨ st'.g.rank x < st'.g.rank e.2

/-- The visited set lists each node once and lists only nodes of the graph. -/
def pass.wf (st : pass) : Prop :=
  st.visited.Nodup ∧ ∀ x, x ∈ st.visited → x < st.g.length

/-! ## `transaction_impl` (transaction.h, lines 187-216)

The header declares `rankOf`, `prioritized`, `last`, `check_regen` and
`process_transactional`; their bodies are in a source file that is not part of
the sources at hand. -/

/-- Modelled from the spec: the body of `rankOf(target)` is missing; it is the
rank of the target node. -/
def rankOf (g : graph) (target : Nat) : Nat := g.rank target

/-- What a prioritized action does when it runs, as far as the engine is
concerned: the sequence of its calls of `prioritized` (with the tag and the
script of the action it schedules), of `last` (with the tag of the action),
and of `link` on nodes of the graph. -/
inductive script where
  | done
  | prioritized (target tag : Nat) (body rest : script)
  | last (tag : Nat) (rest : script)
  | link (n holder target : Nat) (rest : script)
deriving DecidableEq, Repr

namespace script

end script

/-- `struct prioritized_entry`: the target node and the action, an action
being given by a tag that names it and the script of what it does. -/
structure prioritized_entry where
  target : Nat
  tag : Nat
  body : script
deriving DecidableEq, Repr

/-- What happens in a transaction: a call of `prioritized` that assigns `id`,
a call of `last`, the run of a prioritized action popped with the key
`(rank, id)`, the run of a last action. -/
inductive happening where
  | scheduled (id : entryID) (tag : Nat)
  | last_called (tag : Nat)
  | ran (rank : Nat) (id : entryID) (tag : Nat)
  | last_ran (tag : Nat)
deriving DecidableEq, Repr

/-- The order of `std::pair<rank_t, entryID>`: by rank, then by entry id. -/
def key_lt (a b : Nat × entryID) : Bool :=
  decide (a.1 < b.1) || (!decide (b.1 < a.1) && entryID.lt a.2 b.2)

/-- `std::multiset::insert`: the key is put behind the keys that are not
greater. -/
def insertQ (k : Nat × entryID) : List (Nat × entryID) → List (Nat × entryID)
  | [] => [k]
  | b :: q => if key_lt k b then k :: b :: q else b :: insertQ k q

/-- `std::map::insert`: the entry is put at its place in the order of the
keys; nothing is done when the key is present. -/
def map_insert (k : entryID) (e : prioritized_entry) :
    List (entryID × prioritized_entry) → List (entryID × prioritized_entry)
  | [] => [(k, e)]
  | b :: m =>
    if entryID.lt k b.1 then (k, e) :: b :: m
    else if entryID.lt b.1 k then b :: map_insert k e m
    else b :: m

/-- The data members `next_entry_id`, `entries`, `prioritizedQ`, `lastQ` and
`to_regen` of `transaction_impl` (a last action is given by its tag), together
with what the actions act on besides them, the graph `nodes`, and the record
`log` of what happened, oldest first. -/
structure transaction_impl where
  next_entry_id : entryID
  entries : List (entryID × prioritized_entry)
  prioritizedQ : List (Nat × entryID)
  lastQ : List Nat
  to_regen : Bool
  nodes : graph
  log : List happening
deriving DecidableEq, Repr

namespace transaction_impl

/-- A transaction on the graph `g` in which nothing has been scheduled. -/
def init (g : graph) : transaction_impl :=
  { next_entry_id := entryID.default, entries := [], prioritizedQ := [], lastQ := [],
    to_regen := false, nodes := g, log := [] }

/-- Modelled from the spec: the body of `prioritized(target, action)` is
missing.  The spec: it "assigns the action a fresh entry id, inserts into
`entries` and `prioritizedQ` keyed by `(target_node.rank, id)`".  The id is
`next_entry_id`, which is replaced by its successor. -/
def prioritized (w : Nat) (target tag : Nat) (body : script) (t : transaction_impl) :
    transaction_impl :=
  { t with
    next_entry_id := t.next_entry_id.succ w
    entries := map_insert t.next_entry_id ⟨target, tag, body⟩ t.entries
    prioritizedQ := insertQ (rankOf t.nodes target, t.next_entry_id) t.prioritizedQ
    log := t.log ++ [happening.scheduled t.next_entry_id tag] }

/-- Modelled from the spec: the body of `last(action)` is missing.  The spec:
it "appends to `lastQ`". -/
def last (tag : Nat) (t : transaction_impl) : transaction_impl :=
  { t with lastQ := t.lastQ ++ [tag], log := t.log ++ [happening.last_called tag] }

end transaction_impl

/-- The events of the method in a record of marks, without the callers. -/
def events {A : Type} : List (Nat × mark A) → List (event A)
  | [] => []
  | (_, mark.did e) :: ms => e :: events ms
  | _ :: ms => events ms

/-- Caller `0` has taken the lock and entered `update_and_unlock`; nothing
has been recorded yet. -/
def system.entered {C F A : Type} (c : C) (f : Option F) (cs : List A) : system C F A :=
  { counts := c, func := f, cleanups := cs, locked := true, deleted := false,
    pcs := Function.update (fun _ => pc.idle) 0 pc.l80, log := [] }

end impl
end sodium

/-! # Properties -/

namespace sodium
namespace impl

/-! ## Entry identifiers -/

theorem entryID.succ_id_of_lt (w : Nat) (e : entryID) (h : e.id + 1 < 2 ^ w) :
    (entryID.succ w e).id = e.id + 1 := by
  simp [entryID.succ, Nat.mod_eq_of_lt h]

theorem entryID.iterate_succ_id (w : Nat) (e : entryID) :
    ∀ k : Nat, e.id + k < 2 ^ w → ((entryID.succ w)^[k] e).id = e.id + k := by
  intro k
  induction k with
  | zero => intro _; rfl
  | succ k ih =>
    intro h
    rw [Function.iterate_succ_apply', entryID.succ_id_of_lt, ih (by omega)]
    · omega
    · rw [ih (by omega)]; omega

/-- C9 fails as stated: on a platform whose `unsigned long` has 64 bits, the
successor of the entry id `2^64 - 1` is the id `0`, which does not compare
greater. -/
theorem entryID_succ_wraps_64 :
    ¬ (∀ e : entryID, e.id < 2 ^ 64 → entryID.lt e (entryID.succ 64 e) = true) := by
  intro h
  have h1 := h ⟨2 ^ 64 - 1⟩ (by norm_num)
  simp [entryID.lt, entryID.succ] at h1

/-- C9, amended: an entry id below the largest value of `rank_t` compares
less than its successor, whose id is one more; hence `e` compares less than
the id obtained by `k > 0` further calls of `succ` as long as `e.id + k` is
representable.  At the largest value `2 ^ w - 1` of `rank_t` the successor
wraps to the id `0`, which does not compare greater.  The default-constructed
entry id is `0`. -/
theorem entryID_lt_succ_below_max (w : Nat) (e : entryID) (h : e.id + 1 < 2 ^ w) :
    entryID.lt e (entryID.succ w e) = true ∧
    (entryID.succ w e).id = e.id + 1 ∧
    (∀ k : Nat, 0 < k → e.id + k < 2 ^ w →
      entryID.lt e ((entryID.succ w)^[k] e) = true) ∧
    (entryID.succ w ⟨2 ^ w - 1⟩).id = 0 ∧
    entryID.lt ⟨2 ^ w - 1⟩ (entryID.succ w ⟨2 ^ w - 1⟩) = false ∧
    entryID.default.id = 0 := by
  have hpos : 1 ≤ 2 ^ w := Nat.one_le_two_pow
  have hwrap : (entryID.succ w ⟨2 ^ w - 1⟩).id = 0 := by
    simp [entryID.succ, Nat.sub_add_cancel hpos]
  refine ⟨?_, entryID.succ_id_of_lt w e h, ?_, hwrap, ?_, rfl⟩
  · simp [entryID.lt, entryID.succ_id_of_lt w e h]
  · intro k hk hlt
    simp [entryID.lt, entryID.iterate_succ_id w e k hlt, hk]
  · simp [entryID.lt, hwrap]

theorem entryID_lt_succ_below_max_witness :
    (5 : Nat) + 1 < 2 ^ 64 ∧
    (entryID.lt ⟨5⟩ (entryID.succ 64 ⟨5⟩) = true ∧
    (entryID.succ 64 ⟨5⟩).id = 5 + 1 ∧
    (∀ k : Nat, 0 < k → 5 + k < 2 ^ 64 →
      entryID.lt ⟨5⟩ ((entryID.succ 64)^[k] ⟨5⟩) = true) ∧
    (entryID.succ 64 ⟨2 ^ 64 - 1⟩).id = 0 ∧
    entryID.lt ⟨2 ^ 64 - 1⟩ (entryID.succ 64 ⟨2 ^ 64 - 1⟩) = false ∧
    entryID.default.id = 0) :=
  ⟨by norm_num, entryID_lt_succ_below_max 64 ⟨5⟩ (by norm_num)⟩

/-! ## `update_and_unlock`: one call -/

namespace listen_impl_func

variable {C F A : Type}

@[simp] theorem emit_log (e : event A) (s : listen_impl_func C F A) :
    (emit e s).log = s.log ++ [e] := rfl
@[simp] theorem emit_counts (e : event A) (s : listen_impl_func C F A) :
    (emit e s).counts = s.counts := rfl
@[simp] theorem emit_func (e : event A) (s : listen_impl_func C F A) :
    (emit e s).func = s.func := rfl
@[simp] theorem emit_cleanups (e : event A) (s : listen_impl_func C F A) :
    (emit e s).cleanups = s.cleanups := rfl
@[simp] theorem emit_locked (e : event A) (s : listen_impl_func C F A) :
    (emit e s).locked = s.locked := rfl
@[simp] theorem emit_deleted (e : event A) (s : listen_impl_func C F A) :
    (emit e s).deleted = s.deleted := rfl
@[simp] theorem emit_assert_failed (e : event A) (s : listen_impl_func C F A) :
    (emit e s).assert_failed = s.assert_failed := rfl

theorem run_cleanups_eq (it : List A) (s : listen_impl_func C F A) :
    run_cleanups it s = { s with log := s.log ++ loop_events it } := by
  induction it generalizing s with
  | nil => simp [run_cleanups, loop_events]
  | cons a it ih =>
    have := ih (run_cleanup s a)
    simp only [run_cleanups, List.foldl_cons] at this ⊢
    rw [this]
    simp [run_cleanup, emit, loop_events, List.flatMap_cons]

theorem cleanup_body_eq (ops : count_ops C) (s : listen_impl_func C F A) :
    cleanup_body ops s =
      { counts := ops.dec_strong (ops.inc_strong s.counts), func := none,
        cleanups := [], locked := true, deleted := s.deleted,
        assert_failed := s.assert_failed,
        log := s.log ++ ([event.inc_strong, event.unlock] ++ loop_events s.cleanups ++
          [event.clear_cleanups, event.delete_func, event.lock, event.dec_strong]) } := by
  simp [cleanup_body, run_cleanups_eq, unlock, lock, emit]

theorem release_eq (ops : count_ops C) (s : listen_impl_func C F A) :
    release ops s =
      { s with
        locked := false
        deleted := if ops.alive s.counts then s.deleted else true
        assert_failed :=
          if ops.alive s.counts then s.assert_failed
          else (s.assert_failed || !destructor_assertion s)
        log := s.log ++ event.unlock ::
          (if ops.alive s.counts then [] else [event.delete_this]) } := by
  cases h : ops.alive s.counts <;>
    simp [release, h, unlock, delete_this, emit, destructor_assertion]

end listen_impl_func

theorem invoked_append {A : Type} (xs ys : List (event A)) :
    invoked (xs ++ ys) = invoked xs ++ invoked ys := by
  induction xs with
  | nil => rfl
  | cons e xs ih => cases e <;> simp [invoked, ih]

theorem invoked_loop_events {A : Type} (it : List A) :
    invoked (listen_impl_func.loop_events it) = it := by
  induction it with
  | nil => rfl
  | cons a it ih =>
    simpa [listen_impl_func.loop_events, List.flatMap_cons, invoked] using ih

theorem lock_after_append {A : Type} (held : Bool) (xs ys : List (event A)) :
    lock_after held (xs ++ ys) = lock_after (lock_after held xs) ys := by
  induction xs generalizing held with
  | nil => rfl
  | cons e xs ih => cases e <;> simp [lock_after, ih]

/-- While the loop runs, the lock state does not change. -/
theorem lock_after_loop_events {A : Type} (held : Bool) (it : List A) :
    lock_after held (listen_impl_func.loop_events it) = held := by
  induction it with
  | nil => rfl
  | cons a it ih =>
    simpa [listen_impl_func.loop_events, List.flatMap_cons, lock_after] using ih

theorem unlocked_invokes_append {A : Type} (held : Bool) (xs ys : List (event A)) :
    unlocked_invokes held (xs ++ ys) =
      (unlocked_invokes held xs && unlocked_invokes (lock_after held xs) ys) := by
  induction xs generalizing held with
  | nil => simp [unlocked_invokes, lock_after]
  | cons e xs ih => cases e <;> simp [unlocked_invokes, lock_after, ih, Bool.and_assoc]

theorem unlocked_invokes_loop_events {A : Type} (it : List A) :
    unlocked_invokes false (listen_impl_func.loop_events it) = true := by
  induction it with
  | nil => rfl
  | cons a it ih =>
    simpa [listen_impl_func.loop_events, List.flatMap_cons, unlocked_invokes] using ih

theorem lock_after_of_unlocked_invokes {A : Type} (held : Bool)
    (pre post : List (event A)) (a : A)
    (h : unlocked_invokes held (pre ++ event.invoke a :: post) = true) :
    lock_after held pre = false := by
  rw [unlocked_invokes_append] at h
  simp only [unlocked_invokes, Bool.and_eq_true, Bool.not_eq_true'] at h
  exact h.2.1

namespace listen_impl_func

variable {C F A : Type}

/-- The record of one call: the events of the optional cleanup step followed
by the final unlock and, when the handle is no longer alive, its deletion. -/
theorem update_and_unlock_log (ops : count_ops C) (s : listen_impl_func C F A) :
    (update_and_unlock ops s).log = s.log ++
      ((if guard ops s then
          [event.inc_strong, event.unlock] ++ loop_events s.cleanups ++
            [event.clear_cleanups, event.delete_func, event.lock, event.dec_strong]
        else []) ++
        event.unlock ::
          (if ops.alive (cleanup_step ops s).counts then [] else [event.delete_this])) := by
  rw [update_and_unlock, release_eq]
  cases hg : guard ops s <;> simp [cleanup_step, hg, cleanup_body_eq]

end listen_impl_func

/-- C1: when `func` is present and no strong activation is in flight on
entry, `update_and_unlock` invokes the actions of `cleanups` exactly once
each, in list order, and returns with `cleanups` empty and `func` absent. -/
theorem update_and_unlock_runs_cleanups {C F A : Type} (ops : count_ops C)
    (s : listen_impl_func C F A)
    (hf : s.func.isSome = true) (ha : ops.active s.counts = false) :
    invoked ((listen_impl_func.update_and_unlock ops s).log.drop s.log.length)
      = s.cleanups ∧
    (listen_impl_func.update_and_unlock ops s).cleanups = [] ∧
    (listen_impl_func.update_and_unlock ops s).func = none := by
  have hg : listen_impl_func.guard ops s = true := by
    simp [listen_impl_func.guard, hf, ha]
  refine ⟨?_, ?_, ?_⟩
  · rw [listen_impl_func.update_and_unlock_log, List.drop_left]
    cases hal : ops.alive (listen_impl_func.cleanup_step ops s).counts <;>
      simp [hg, invoked_append, invoked_loop_events, invoked]
  · simp [listen_impl_func.update_and_unlock, listen_impl_func.release_eq,
      listen_impl_func.cleanup_step, hg, listen_impl_func.cleanup_body_eq]
  · simp [listen_impl_func.update_and_unlock, listen_impl_func.release_eq,
      listen_impl_func.cleanup_step, hg, listen_impl_func.cleanup_body_eq]

theorem update_and_unlock_runs_cleanups_witness :
    ((listen_impl_func.entry (⟨1, 0⟩ : count_set) (some ()) [7, 8, 9]).func.isSome = true ∧
     count_set.ops.active
       (listen_impl_func.entry (⟨1, 0⟩ : count_set) (some ()) [7, 8, 9]).counts = false) ∧
    (invoked ((listen_impl_func.update_and_unlock count_set.ops
        (listen_impl_func.entry ⟨1, 0⟩ (some ()) [7, 8, 9])).log.drop
          (listen_impl_func.entry (⟨1, 0⟩ : count_set) (some ()) [7, 8, 9]).log.length)
      = [7, 8, 9] ∧
    (listen_impl_func.update_and_unlock count_set.ops
        (listen_impl_func.entry ⟨1, 0⟩ (some ()) [7, 8, 9])).cleanups = [] ∧
    (listen_impl_func.update_and_unlock count_set.ops
        (listen_impl_func.entry ⟨1, 0⟩ (some ()) [7, 8, 9])).func = none) :=
  ⟨⟨rfl, rfl⟩, update_and_unlock_runs_cleanups count_set.ops
    (listen_impl_func.entry ⟨1, 0⟩ (some ()) [7, 8, 9]) rfl rfl⟩

/-- C2: in a call of `update_and_unlock` that starts with the lock held, the
events are, in order: `inc_strong`, `unlock`, the cleanups, the discarding of
`func`, `lock`, `dec_strong` (all of these only when the test of line 80
succeeds), then the final `unlock` (and `delete this`); and every cleanup
action is invoked at a point where the lock is not held. -/
theorem update_and_unlock_cleanups_unlocked {C F A : Type} (ops : count_ops C)
    (s : listen_impl_func C F A) (hl : s.locked = true) :
    (listen_impl_func.update_and_unlock ops s).log = s.log ++
      ((if listen_impl_func.guard ops s then
          [event.inc_strong, event.unlock] ++ listen_impl_func.loop_events s.cleanups ++
            [event.clear_cleanups, event.delete_func, event.lock, event.dec_strong]
        else []) ++
        event.unlock ::
          (if ops.alive (listen_impl_func.cleanup_step ops s).counts then []
           else [event.delete_this])) ∧
    ∀ (pre post : List (event A)) (a : A),
      (listen_impl_func.update_and_unlock ops s).log
          = s.log ++ (pre ++ event.invoke a :: post) →
      lock_after s.locked pre = false := by
  refine ⟨listen_impl_func.update_and_unlock_log ops s, ?_⟩
  intro pre post a h
  rw [listen_impl_func.update_and_unlock_log] at h
  have h := List.append_cancel_left h
  apply lock_after_of_unlocked_invokes s.locked pre post a
  rw [← h, hl]
  cases hg : listen_impl_func.guard ops s <;>
    cases hal : ops.alive (listen_impl_func.cleanup_step ops s).counts <;>
    simp [unlocked_invokes, unlocked_invokes_append, lock_after_append, lock_after,
      unlocked_invokes_loop_events, lock_after_loop_events]

theorem update_and_unlock_cleanups_unlocked_witness :
    (listen_impl_func.entry (⟨1, 0⟩ : count_set) (some ()) [7, 8]).locked = true ∧
    ((listen_impl_func.update_and_unlock count_set.ops
        (listen_impl_func.entry ⟨1, 0⟩ (some ()) [7, 8])).log =
      [event.inc_strong, event.unlock, event.invoke 7, event.delete_cleanup 7,
       event.invoke 8, event.delete_cleanup 8, event.clear_cleanups, event.delete_func,
       event.lock, event.dec_strong, event.unlock] ∧
     lock_after true [event.inc_strong, event.unlock, event.invoke 7,
       event.delete_cleanup (7 : Nat)] = false) :=
  ⟨rfl, by
    have h := update_and_unlock_cleanups_unlocked count_set.ops
      (listen_impl_func.entry (⟨1, 0⟩ : count_set) (some ()) [7, 8]) rfl
    exact ⟨by rw [h.1]; rfl, h.2 _ _ 8 rfl⟩⟩

/-- C4: `update_and_unlock` destroys the handle exactly when `counts.alive()`
is false after the optional cleanup step; on both paths the events after that
step are one `unlock` (followed by `delete this` on the destroying path), so
the lock is not held on return; and when the cleanup step ran, the strong
count it incremented has been decremented before the test. -/
theorem update_and_unlock_destroys_iff_not_alive {C F A : Type} (ops : count_ops C)
    (s : listen_impl_func C F A) (hd : s.deleted = false) :
    ((listen_impl_func.update_and_unlock ops s).deleted = true ↔
      ops.alive (listen_impl_func.cleanup_step ops s).counts = false) ∧
    (listen_impl_func.update_and_unlock ops s).locked = false ∧
    (listen_impl_func.update_and_unlock ops s).log =
      (listen_impl_func.cleanup_step ops s).log ++ event.unlock ::
        (if ops.alive (listen_impl_func.cleanup_step ops s).counts then []
         else [event.delete_this]) ∧
    (listen_impl_func.cleanup_step ops s).counts =
      (if listen_impl_func.guard ops s then ops.dec_strong (ops.inc_strong s.counts)
       else s.counts) ∧
    (listen_impl_func.guard ops s = true →
      ∃ pre, (listen_impl_func.cleanup_step ops s).log =
        pre ++ [event.inc_strong] ++ [event.unlock] ++
          listen_impl_func.loop_events s.cleanups ++
          [event.clear_cleanups, event.delete_func, event.lock, event.dec_strong]) := by
  have hd1 : (listen_impl_func.cleanup_step ops s).deleted = false := by
    cases hg : listen_impl_func.guard ops s <;>
      simp [listen_impl_func.cleanup_step, hg, listen_impl_func.cleanup_body_eq, hd]
  refine ⟨?_, ?_, ?_, ?_, ?_⟩
  · rw [listen_impl_func.update_and_unlock, listen_impl_func.release_eq]
    cases hal : ops.alive (listen_impl_func.cleanup_step ops s).counts <;> simp [hd1]
  · rw [listen_impl_func.update_and_unlock, listen_impl_func.release_eq]
  · rw [listen_impl_func.update_and_unlock, listen_impl_func.release_eq]
  · cases hg : listen_impl_func.guard ops s <;>
      simp [listen_impl_func.cleanup_step, hg, listen_impl_func.cleanup_body_eq]
  · intro hg
    exact ⟨s.log, by
      simp [listen_impl_func.cleanup_step, hg, listen_impl_func.cleanup_body_eq]⟩

theorem update_and_unlock_destroys_iff_not_alive_witness :
    (listen_impl_func.entry (⟨0, 0⟩ : count_set) (some ()) [7]).deleted = false ∧
    (listen_impl_func.update_and_unlock count_set.ops
        (listen_impl_func.entry (⟨0, 0⟩ : count_set) (some ()) [7])).deleted = true ∧
    (listen_impl_func.update_and_unlock count_set.ops
        (listen_impl_func.entry (⟨0, 0⟩ : count_set) (some ()) [7])).locked = false :=
  ⟨rfl,
   ((update_and_unlock_destroys_iff_not_alive count_set.ops
      (listen_impl_func.entry (⟨0, 0⟩ : count_set) (some ()) [7]) rfl).1).2 rfl,
   (update_and_unlock_destroys_iff_not_alive count_set.ops
      (listen_impl_func.entry (⟨0, 0⟩ : count_set) (some ()) [7]) rfl).2.1⟩

/-- C10: from an entry state in which an absent `func` implies an empty
`cleanups` list and a handle that is not alive has no strong activation in
flight, the assertion of the destructor (`cleanups` empty and `func == NULL`)
holds whenever `update_and_unlock` reaches `delete this`; the cleanup actions
are taken not to touch the handle. -/
theorem update_and_unlock_destructor_assertion {C F A : Type} (ops : count_ops C)
    (s : listen_impl_func C F A)
    (hd : s.deleted = false) (hf : s.assert_failed = false)
    (h1 : s.func = none → s.cleanups = [])
    (h2 : ops.alive s.counts = false → ops.active s.counts = false) :
    (listen_impl_func.update_and_unlock ops s).assert_failed = false ∧
    ((listen_impl_func.update_and_unlock ops s).deleted = true →
      (listen_impl_func.update_and_unlock ops s).cleanups = [] ∧
      (listen_impl_func.update_and_unlock ops s).func = none) := by
  rw [listen_impl_func.update_and_unlock, listen_impl_func.release_eq]
  cases hg : listen_impl_func.guard ops s
  · -- the cleanup step is skipped
    have hs : listen_impl_func.cleanup_step ops s = s := by
      simp [listen_impl_func.cleanup_step, hg]
    rw [hs]
    cases hal : ops.alive s.counts
    · have hact := h2 hal
      have hnone : s.func = none := by
        cases hfunc : s.func with
        | none => rfl
        | some f => simp [listen_impl_func.guard, hfunc, hact] at hg
      simp [hf, listen_impl_func.destructor_assertion, hnone, h1 hnone]
    · simp [hf, hd]
  · -- the cleanup step ran: `cleanups` is empty and `func` is `NULL`
    cases hal : ops.alive (listen_impl_func.cleanup_step ops s).counts <;>
      simp [listen_impl_func.cleanup_step, hg, listen_impl_func.cleanup_body_eq, hf, hd,
        listen_impl_func.destructor_assertion] at hal ⊢

theorem update_and_unlock_destructor_assertion_witness :
    ((listen_impl_func.entry (⟨0, 0⟩ : count_set) (some ()) [7]).deleted = false ∧
     (listen_impl_func.entry (⟨0, 0⟩ : count_set) (some ()) [7]).assert_failed = false ∧
     ((listen_impl_func.entry (⟨0, 0⟩ : count_set) (some ()) [7]).func = none →
       (listen_impl_func.entry (⟨0, 0⟩ : count_set) (some ()) [7]).cleanups = []) ∧
     (count_set.ops.alive (⟨0, 0⟩ : count_set) = false →
       count_set.ops.active (⟨0, 0⟩ : count_set) = false)) ∧
    ((listen_impl_func.update_and_unlock count_set.ops
        (listen_impl_func.entry (⟨0, 0⟩ : count_set) (some ()) [7])).assert_failed = false ∧
     (listen_impl_func.update_and_unlock count_set.ops
        (listen_impl_func.entry (⟨0, 0⟩ : count_set) (some ()) [7])).deleted = true) :=
  ⟨⟨rfl, rfl, fun h => by simp [listen_impl_func.entry] at h, fun _ => rfl⟩,
   (update_and_unlock_destructor_assertion count_set.ops
      (listen_impl_func.entry (⟨0, 0⟩ : count_set) (some ()) [7]) rfl rfl
      (fun h => by simp [listen_impl_func.entry] at h) (fun _ => rfl)).1, rfl⟩

/-! ## `update_and_unlock`: overlapping calls -/

theorem invoked_marks_append {A : Type} (xs ys : List (Nat × mark A)) :
    invoked_marks (xs ++ ys) = invoked_marks xs ++ invoked_marks ys := by
  induction xs with
  | nil => rfl
  | cons m xs ih =>
    obtain ⟨u, m⟩ := m
    cases m with
    | did e => cases e <;> simp [invoked_marks, ih]
    | _ => simp [invoked_marks, ih]

theorem deletions_append {A : Type} (xs ys : List (Nat × mark A)) :
    deletions (xs ++ ys) = deletions xs + deletions ys := by
  induction xs with
  | nil => simp [deletions]
  | cons m xs ih =>
    obtain ⟨u, m⟩ := m
    cases m with
    | did e =>
      cases e <;> simp [deletions, ih]
      omega
    | _ => simp [deletions, ih]

theorem passed_append {A : Type} (t : Nat) (xs ys : List (Nat × mark A)) (b : Bool) :
    passed t (xs ++ ys) b = passed t ys (passed t xs b) := by
  induction xs generalizing b with
  | nil => rfl
  | cons m xs ih =>
    obtain ⟨u, m⟩ := m
    cases m <;> simp [passed, ih]

namespace system

variable {C F A : Type}

@[simp] theorem goto_pcs (t : Nat) (p : pc A) (ms : List (mark A)) (s : system C F A)
    (u : Nat) : (goto t p ms s).pcs u = if u = t then p else s.pcs u := by
  simp [goto, Function.update_apply]
@[simp] theorem goto_counts (t : Nat) (p : pc A) (ms : List (mark A)) (s : system C F A) :
    (goto t p ms s).counts = s.counts := rfl
@[simp] theorem goto_func (t : Nat) (p : pc A) (ms : List (mark A)) (s : system C F A) :
    (goto t p ms s).func = s.func := rfl
@[simp] theorem goto_cleanups (t : Nat) (p : pc A) (ms : List (mark A)) (s : system C F A) :
    (goto t p ms s).cleanups = s.cleanups := rfl
@[simp] theorem goto_locked (t : Nat) (p : pc A) (ms : List (mark A)) (s : system C F A) :
    (goto t p ms s).locked = s.locked := rfl
@[simp] theorem goto_deleted (t : Nat) (p : pc A) (ms : List (mark A)) (s : system C F A) :
    (goto t p ms s).deleted = s.deleted := rfl
@[simp] theorem goto_log (t : Nat) (p : pc A) (ms : List (mark A)) (s : system C F A) :
    (goto t p ms s).log = s.log ++ ms.map (Prod.mk t) := rfl

/-! ### What one step does -/

theorem step_pcs_other (ops : count_ops C) (s : system C F A) (t u : Nat) (e : u ≠ t) :
    (step ops t s).pcs u = s.pcs u := by
  unfold step
  split
  · rfl
  split <;> (try split) <;> simp [e]

theorem step_holds_self (ops : count_ops C) (s : system C F A) (t : Nat)
    (h : ((step ops t s).pcs t).holds = true) :
    (s.pcs t).holds = true ∨ s.locked = false := by
  revert h
  unfold step
  split
  · exact fun h => Or.inl h
  split <;> (try split) <;> simp_all [pc.holds]

theorem step_locked_self (ops : count_ops C) (s : system C F A) (t : Nat)
    (h0 : (s.pcs t).holds = true → s.locked = true)
    (h : ((step ops t s).pcs t).holds = true) : (step ops t s).locked = true := by
  revert h
  unfold step
  split
  · exact h0
  split <;> (try split) <;> simp_all [pc.holds]

theorem step_locked_other (ops : count_ops C) (s : system C F A) (t : Nat)
    (h : s.locked = true) :
    (step ops t s).locked = true ∨ (s.pcs t).holds = true := by
  unfold step
  split
  · exact Or.inl h
  split <;> (try split) <;> simp_all [pc.holds]

theorem step_marked_self (ops : count_ops C) (s : system C F A) (t : Nat)
    (h : ((step ops t s).pcs t).marked = true) :
    (s.pcs t).marked = true ∨ s.pcs t = pc.l81 := by
  revert h
  unfold step
  split
  · exact fun h => Or.inl h
  split <;> (try split) <;> simp_all [pc.marked]

theorem step_active_self (ops : count_ops C)
    (hlaw : ∀ c, ops.active (ops.inc_strong c) = true) (s : system C F A) (t : Nat)
    (h0 : (s.pcs t).marked = true → ops.active s.counts = true)
    (h : ((step ops t s).pcs t).marked = true) :
    ops.active (step ops t s).counts = true := by
  revert h
  unfold step
  split
  · exact h0
  split <;> (try split) <;> simp_all [pc.marked]

theorem step_active_other (ops : count_ops C)
    (hlaw : ∀ c, ops.active (ops.inc_strong c) = true) (s : system C F A) (t : Nat)
    (h : ops.active s.counts = true) :
    ops.active (step ops t s).counts = true ∨ (s.pcs t).marked = true := by
  unfold step
  split
  · exact Or.inl h
  split <;> (try split) <;> simp_all [pc.marked]

theorem step_l81_self (ops : count_ops C) (s : system C F A) (t : Nat)
    (h0 : s.pcs t = pc.l81 → ops.active s.counts = false)
    (h : (step ops t s).pcs t = pc.l81) :
    ops.active (step ops t s).counts = false := by
  revert h
  unfold step
  split
  · exact h0
  split <;> (try split) <;> simp_all

theorem step_counts_other (ops : count_ops C) (s : system C F A) (t : Nat) :
    (step ops t s).counts = s.counts ∨ (s.pcs t).holds = true := by
  unfold step
  split
  · exact Or.inl rfl
  split <;> (try split) <;> simp_all [pc.holds]

theorem step_func_self (ops : count_ops C) (s : system C F A) (t : Nat)
    (h0 : (s.pcs t).before_reset = true → s.func.isSome = true)
    (h : ((step ops t s).pcs t).before_reset = true) :
    (step ops t s).func.isSome = true := by
  revert h
  unfold step
  split
  · exact h0
  split <;> (try split) <;> simp_all [pc.before_reset]

theorem step_func (ops : count_ops C) (s : system C F A) (t : Nat) :
    (step ops t s).func = s.func ∨ (s.pcs t = pc.l89 ∧ (step ops t s).func = none) := by
  unfold step
  split
  · exact Or.inl rfl
  split <;> (try split) <;> simp_all

theorem step_passed_self (ops : count_ops C) (s : system C F A) (t : Nat)
    (h0 : (s.pcs t).in_body = true → passed t s.log false = true)
    (h : ((step ops t s).pcs t).in_body = true) :
    passed t (step ops t s).log false = true := by
  revert h
  unfold step
  split
  · exact h0
  split <;> (try split) <;> simp_all [pc.in_body, passed_append, passed]

theorem step_passed_other (ops : count_ops C) (s : system C F A) (t u : Nat) (e : u ≠ t)
    (b : Bool) : passed u (step ops t s).log b = passed u s.log b := by
  have e' : ¬ t = u := fun h => e h.symm
  unfold step
  split
  · rfl
  split <;> (try split) <;> simp [passed_append, passed, e']

end system

theorem pc.before_reset_cases {A : Type} (p : pc A) (h : p.before_reset = true) :
    p = pc.l81 ∨ p.marked = true := by
  cases p <;> simp_all [pc.before_reset, pc.marked]

theorem pc.marked_of_started {A : Type} (p : pc A) (h : p.started = true) :
    p.marked = true := by
  cases p <;> simp_all [pc.started, pc.marked]

theorem pc.started_of_cleared {A : Type} (p : pc A) (h : p.cleared = true) :
    p.started = true := by
  cases p <;> simp_all [pc.started, pc.cleared]

namespace system

variable {C F A : Type}

/-- A step either invokes nothing, or it is the step of the loop that invokes
the head of the iterator range. -/
theorem step_invoked (ops : count_ops C) (s : system C F A) (t : Nat) :
    (invoked_marks (step ops t s).log = invoked_marks s.log ∧
      ∀ it, (step ops t s).pcs t = pc.l83 it →
        s.pcs t = pc.l83 it ∨ (s.pcs t = pc.l82 ∧ it = s.cleanups)) ∨
    ∃ a it, s.pcs t = pc.l83 (a :: it) ∧ (step ops t s).pcs t = pc.l83 it ∧
      invoked_marks (step ops t s).log = invoked_marks s.log ++ [a] := by
  unfold step
  split
  · exact Or.inl ⟨rfl, fun it h => Or.inl h⟩
  split <;> (try split) <;> simp_all [invoked_marks_append, invoked_marks]
  exact ⟨_, _, ⟨rfl, rfl⟩, rfl, rfl⟩

theorem step_started (ops : count_ops C) (s : system C F A) (t : Nat)
    (h : (s.pcs t).started = true) :
    ((step ops t s).pcs t).started = true ∨ (step ops t s).func = none := by
  revert h
  unfold step
  split
  · exact fun h => Or.inl h
  split <;> (try split) <;> simp_all [pc.started]

theorem step_cleared (ops : count_ops C) (s : system C F A) (t : Nat)
    (h : (s.pcs t).cleared = true) :
    ((step ops t s).pcs t).cleared = true ∨ (step ops t s).func = none := by
  revert h
  unfold step
  split
  · exact fun h => Or.inl h
  split <;> (try split) <;> simp_all [pc.cleared]

theorem step_cleanups (ops : count_ops C) (s : system C F A) (t : Nat) :
    (step ops t s).cleanups = s.cleanups ∨ ((step ops t s).pcs t).cleared = true := by
  unfold step
  split
  · exact Or.inl rfl
  split <;> (try split) <;> simp_all [pc.cleared]

theorem step_deletions (ops : count_ops C) (s : system C F A) (t : Nat) :
    deletions (step ops t s).log = deletions s.log ∨
    (s.pcs t = pc.l88 ∧ (step ops t s).pcs t = pc.l89 ∧
      deletions (step ops t s).log = deletions s.log + 1) := by
  unfold step
  split
  · exact Or.inl rfl
  split <;> (try split) <;> simp_all [deletions_append, deletions]

theorem step_l89 (ops : count_ops C) (s : system C F A) (t : Nat)
    (h : s.pcs t = pc.l89) :
    (step ops t s).pcs t = pc.l89 ∨ (step ops t s).func = none := by
  unfold step
  split
  · exact Or.inl h
  split <;> (try split) <;> simp_all

/-- A caller outside the body of the first `if` changes neither `func` nor
`cleanups` and invokes nothing. -/
theorem step_outside_body (ops : count_ops C) (s : system C F A) (t : Nat)
    (h : (s.pcs t).in_body = false) :
    (step ops t s).func = s.func ∧ (step ops t s).cleanups = s.cleanups ∧
    invoked_marks (step ops t s).log = invoked_marks s.log := by
  revert h
  unfold step
  split
  · exact fun _ => ⟨rfl, rfl, rfl⟩
  split <;> (try split) <;> simp_all [pc.in_body, invoked_marks_append, invoked_marks]

theorem step_func_none (ops : count_ops C) (s : system C F A) (t : Nat)
    (h : s.func = none) : (step ops t s).func = none := by
  rcases step_func ops s t with h1 | h1
  · rw [h1, h]
  · exact h1.2

theorem run_func_none (ops : count_ops C) (sched : List Nat) (s : system C F A)
    (h : s.func = none) : (run ops sched s).func = none := by
  induction sched generalizing s with
  | nil => exact h
  | cons t sched ih => exact ih _ (step_func_none ops s t h)

theorem run_append (ops : count_ops C) (xs ys : List Nat) (s : system C F A) :
    run ops (xs ++ ys) s = run ops ys (run ops xs s) := by
  simp [run, List.foldl_append]

/-! ### The invariant -/

theorem inv_init (ops : count_ops C) (c : C) (f : Option F) (cs : List A) :
    (init c f cs).inv ops cs := by
  constructor <;> simp [init, pc.holds, pc.marked, pc.before_reset, pc.in_body,
    invoked_marks, deletions]

theorem inv_step (ops : count_ops C) (hlaw : ∀ c, ops.active (ops.inc_strong c) = true)
    (cs0 : List A) (s : system C F A) (h : s.inv ops cs0) (t : Nat) :
    (step ops t s).inv ops cs0 := by
  obtain ⟨h1, h2, h3, h4, h5, h6, h7, h8, h9, h10, h11, h12, h13⟩ := h
  have other := step_pcs_other ops s t
  -- no caller other than `t` is marked while `t` is marked or on line 81
  have alone : ∀ u, u ≠ t → ((s.pcs t).marked = true ∨ s.pcs t = pc.l81) →
      (s.pcs u).marked = false := by
    intro u e ht
    by_contra hu
    simp only [Bool.not_eq_false] at hu
    rcases ht with ht | ht
    · exact e (h3 u t hu ht)
    · have := h4 u hu
      rw [h5 t ht] at this
      exact Bool.noConfusion this
  refine ⟨?_, ?_, ?_, ?_, ?_, ?_, ?_, ?_, ?_, ?_, ?_, ?_, ?_⟩
  · -- lock_held
    intro u hu
    by_cases e : u = t
    · subst e; exact step_locked_self ops s u (h1 u) hu
    · rw [other u e] at hu
      rcases step_locked_other ops s t (h1 u hu) with h | h
      · exact h
      · exact absurd (h2 u t hu h) e
  · -- lock_excl
    have key : ∀ u, u ≠ t → ((step ops t s).pcs t).holds = true →
        (s.pcs u).holds = true → False := by
      intro u e ht hu
      rcases step_holds_self ops s t ht with h | h
      · exact e (h2 u t hu h)
      · rw [h1 u hu] at h; exact Bool.noConfusion h
    intro u v hu hv
    by_cases e : u = t
    · by_cases e' : v = t
      · rw [e, e']
      · subst e; rw [other v e'] at hv; exact (key v e' hu hv).elim
    · by_cases e' : v = t
      · subst e'; rw [other u e] at hu; exact (key u e hv hu).elim
      · rw [other u e] at hu; rw [other v e'] at hv; exact h2 u v hu hv
  · -- mark_excl
    have key : ∀ u, u ≠ t → ((step ops t s).pcs t).marked = true →
        (s.pcs u).marked = true → False := by
      intro u e ht hu
      have := alone u e (step_marked_self ops s t ht)
      rw [hu] at this; exact Bool.noConfusion this
    intro u v hu hv
    by_cases e : u = t
    · by_cases e' : v = t
      · rw [e, e']
      · subst e; rw [other v e'] at hv; exact (key v e' hu hv).elim
    · by_cases e' : v = t
      · subst e'; rw [other u e] at hu; exact (key u e hv hu).elim
      · rw [other u e] at hu; rw [other v e'] at hv; exact h3 u v hu hv
  · -- mark_active
    intro u hu
    by_cases e : u = t
    · subst e; exact step_active_self ops hlaw s u (h4 u) hu
    · rw [other u e] at hu
      rcases step_active_other ops hlaw s t (h4 u hu) with h | h
      · exact h
      · exact absurd (h3 u t hu h) e
  · -- l81_inactive
    intro u hu
    by_cases e : u = t
    · subst e; exact step_l81_self ops s u (h5 u) hu
    · rw [other u e] at hu
      rcases step_counts_other ops s t with h | h
      · rw [h]; exact h5 u hu
      · exact absurd (h2 u t (by rw [hu]; rfl) h) e
  · -- func_some
    intro u hu
    by_cases e : u = t
    · subst e; exact step_func_self ops s u (h6 u) hu
    · rw [other u e] at hu
      rcases step_func ops s t with h | ⟨h, _⟩
      · rw [h]; exact h6 u hu
      · have hm := alone u e (Or.inl (by rw [h]; rfl))
        rcases pc.before_reset_cases _ hu with h81 | hmk
        · have := h4 t (by rw [h]; rfl)
          rw [h5 u h81] at this
          exact Bool.noConfusion this
        · rw [hmk] at hm; exact Bool.noConfusion hm
  · -- iter
    intro u it hu
    rcases step_invoked ops s t with ⟨hlog, hpc⟩ | ⟨a, it', hold, hnew, hlog⟩
    · rw [hlog]
      by_cases e : u = t
      · subst e
        rcases hpc it hu with h | ⟨h, hit⟩
        · exact h7 u it h
        · have hf := h6 u (by rw [h]; rfl)
          have hst : ∀ v, (s.pcs v).started = false := by
            intro v
            by_cases ev : v = u
            · rw [ev, h]; rfl
            · by_contra hv
              simp only [Bool.not_eq_false] at hv
              have := alone v ev (Or.inl (by rw [h]; rfl))
              rw [pc.marked_of_started _ hv] at this
              exact Bool.noConfusion this
          have hcl : ∀ v, (s.pcs v).cleared = false := by
            intro v
            by_contra hv
            simp only [Bool.not_eq_false] at hv
            have := hst v
            rw [pc.started_of_cleared _ hv] at this
            exact Bool.noConfusion this
          rw [h8 hf hst, hit, h9 hf hcl]; rfl
      · rw [other u e] at hu; exact h7 u it hu
    · by_cases e : u = t
      · subst e
        rw [hnew] at hu
        cases hu
        rw [hlog, List.append_assoc]
        exact h7 u (a :: it) hold
      · rw [other u e] at hu
        have := alone u e (Or.inl (by rw [hold]; rfl))
        rw [hu] at this
        exact Bool.noConfusion this
  · -- fresh
    intro hf hst
    have hf' : s.func.isSome = true := by
      rcases step_func ops s t with h | ⟨_, h⟩
      · rw [← h]; exact hf
      · rw [h] at hf; exact Bool.noConfusion hf
    have hst' : ∀ v, (s.pcs v).started = false := by
      intro v
      by_cases ev : v = t
      · subst ev
        by_contra hv
        simp only [Bool.not_eq_false] at hv
        rcases step_started ops s v hv with h | h
        · rw [hst v] at h; exact Bool.noConfusion h
        · rw [h] at hf; exact Bool.noConfusion hf
      · rw [← other v ev]; exact hst v
    rcases step_invoked ops s t with ⟨hlog, _⟩ | ⟨a, it', hold, _, _⟩
    · rw [hlog]; exact h8 hf' hst'
    · have := hst' t
      rw [hold] at this
      exact Bool.noConfusion this
  · -- list
    intro hf hcl
    have hf' : s.func.isSome = true := by
      rcases step_func ops s t with h | ⟨_, h⟩
      · rw [← h]; exact hf
      · rw [h] at hf; exact Bool.noConfusion hf
    have hcl' : ∀ v, (s.pcs v).cleared = false := by
      intro v
      by_cases ev : v = t
      · subst ev
        by_contra hv
        simp only [Bool.not_eq_false] at hv
        rcases step_cleared ops s v hv with h | h
        · rw [hcl v] at h; exact Bool.noConfusion h
        · rw [h] at hf; exact Bool.noConfusion hf
      · rw [← other v ev]; exact hcl v
    rcases step_cleanups ops s t with h | h
    · rw [h]; exact h9 hf' hcl'
    · rw [hcl t] at h; exact Bool.noConfusion h
  · -- pre
    rcases step_invoked ops s t with ⟨hlog, _⟩ | ⟨a, it', hold, _, hlog⟩
    · rw [hlog]; exact h10
    · rw [hlog]
      have := h7 t (a :: it') hold
      exact ⟨it', by rw [List.append_assoc]; exact this⟩
  · -- del_le
    rcases step_deletions ops s t with h | ⟨hold, _, h⟩
    · rw [h]; exact h11
    · have hf := h6 t (by rw [hold]; rfl)
      have hno : ∀ v, s.pcs v ≠ pc.l89 := by
        intro v hv
        by_cases ev : v = t
        · rw [ev, hold] at hv; cases hv
        · have := alone v ev (Or.inl (by rw [hold]; rfl))
          rw [hv] at this
          exact Bool.noConfusion this
      rw [h, h12 hf hno]
  · -- del_zero
    intro hf hno
    have hf' : s.func.isSome = true := by
      rcases step_func ops s t with h | ⟨_, h⟩
      · rw [← h]; exact hf
      · rw [h] at hf; exact Bool.noConfusion hf
    have hno' : ∀ v, s.pcs v ≠ pc.l89 := by
      intro v hv
      by_cases ev : v = t
      · subst ev
        rcases step_l89 ops s v hv with h | h
        · exact hno v h
        · rw [h] at hf; exact Bool.noConfusion hf
      · rw [← other v ev] at hv; exact hno v hv
    rcases step_deletions ops s t with h | ⟨_, hnew, _⟩
    · rw [h]; exact h12 hf' hno'
    · exact absurd hnew (hno t)
  · -- passed_ok
    intro u hu
    by_cases e : u = t
    · subst e; exact step_passed_self ops s u (h13 u) hu
    · rw [other u e] at hu
      rw [step_passed_other ops s t u e]
      exact h13 u hu

theorem inv_run (ops : count_ops C) (hlaw : ∀ c, ops.active (ops.inc_strong c) = true)
    (cs0 : List A) (sched : List Nat) (s : system C F A) (h : s.inv ops cs0) :
    (run ops sched s).inv ops cs0 := by
  induction sched generalizing s with
  | nil => exact h
  | cons t sched ih => exact ih _ (inv_step ops hlaw cs0 s h t)

end system

/-- C3: after any interleaving of the steps of any number of calls of
`update_and_unlock` on one handle (given that `counts.active()` holds once
`inc_strong()` has been called): the cleanup actions invoked so far, by all
calls together, are an initial part of the `cleanups` list, so each is invoked
at most once; `func` is deleted at most once; once `func` is absent it stays
absent; and a caller whose call has not passed the test of line 80 (it found
`func` absent or a strong activation in flight) invokes no cleanup and leaves
`func` and `cleanups` unchanged by its next step. -/
theorem update_and_unlock_cleanup_at_most_once {C F A : Type} (ops : count_ops C)
    (hlaw : ∀ c, ops.active (ops.inc_strong c) = true)
    (c : C) (f : Option F) (cs : List A) (sched : List Nat) :
    invoked_marks (system.run ops sched (system.init c f cs)).log <+: cs ∧
    deletions (system.run ops sched (system.init c f cs)).log ≤ 1 ∧
    (∀ more : List Nat, (system.run ops sched (system.init c f cs)).func = none →
      (system.run ops (sched ++ more) (system.init c f cs)).func = none) ∧
    (∀ t : Nat, passed t (system.run ops sched (system.init c f cs)).log false = false →
      (system.step ops t (system.run ops sched (system.init c f cs))).func
        = (system.run ops sched (system.init c f cs)).func ∧
      (system.step ops t (system.run ops sched (system.init c f cs))).cleanups
        = (system.run ops sched (system.init c f cs)).cleanups ∧
      invoked_marks (system.step ops t (system.run ops sched (system.init c f cs))).log
        = invoked_marks (system.run ops sched (system.init c f cs)).log) := by
  have hinv := system.inv_run ops hlaw cs sched _ (system.inv_init ops c f cs)
  refine ⟨hinv.pre, hinv.del_le, ?_, ?_⟩
  · intro more h
    rw [system.run_append]
    exact system.run_func_none ops more _ h
  · intro t ht
    apply system.step_outside_body
    by_contra hb
    simp only [Bool.not_eq_false] at hb
    rw [hinv.passed_ok t hb] at ht
    exact Bool.noConfusion ht

theorem update_and_unlock_cleanup_at_most_once_witness :
    (∀ c, count_set.ops.active (count_set.ops.inc_strong c) = true) ∧
    invoked_marks (system.run count_set.ops [0, 0, 0, 0, 1, 0, 0, 1, 1, 0, 0, 0, 0, 1]
      (system.init (⟨1, 0⟩ : count_set) (some ()) [7, 8])).log <+: [7, 8] ∧
    deletions (system.run count_set.ops [0, 0, 0, 0, 1, 0, 0, 1, 1, 0, 0, 0, 0, 1]
      (system.init (⟨1, 0⟩ : count_set) (some ()) [7, 8])).log ≤ 1 :=
  ⟨fun c => by simp [count_set.ops],
   (update_and_unlock_cleanup_at_most_once count_set.ops
      (fun c => by simp [count_set.ops]) ⟨1, 0⟩ (some ()) [7, 8]
      [0, 0, 0, 0, 1, 0, 0, 1, 1, 0, 0, 0, 0, 1]).1,
   (update_and_unlock_cleanup_at_most_once count_set.ops
      (fun c => by simp [count_set.ops]) ⟨1, 0⟩ (some ()) [7, 8]
      [0, 0, 0, 0, 1, 0, 0, 1, 1, 0, 0, 0, 0, 1]).2.1⟩

/-! ## Rank repair -/

namespace graph

theorem length_set_rank (g : graph) (v r : Nat) : (g.set_rank v r).length = g.length := by
  unfold set_rank
  split <;> simp

theorem getElem?_set_rank (g : graph) (v r u : Nat) :
    (g.set_rank v r)[u]? =
      if u = v then g[u]?.map (fun nd => { nd with rank := r }) else g[u]? := by
  unfold set_rank
  split
  · rename_i nd h
    by_cases e : u = v
    · subst e
      have hlt : u < g.length := by
        by_contra hge
        rw [List.getElem?_eq_none (by omega)] at h
        cases h
      simp [List.getElem?_set, hlt, h]
    · have e' : ¬ v = u := fun h => e h.symm
      simp [List.getElem?_set, e, e']
  · rename_i h
    by_cases e : u = v
    · subst e; simp [h]
    · simp [e]

theorem rank_set_rank (g : graph) (v r u : Nat) :
    (g.set_rank v r).rank u = if u = v ∧ v < g.length then r else g.rank u := by
  unfold rank
  rw [getElem?_set_rank]
  by_cases e : u = v
  · subst e
    by_cases hlt : u < g.length
    · simp [hlt, List.getElem?_eq_getElem hlt]
    · simp [hlt, List.getElem?_eq_none (Nat.le_of_not_lt hlt)]
  · simp [e]

theorem targets_set_rank (g : graph) (v r u : Nat) :
    (g.set_rank v r).targets u = g.targets u := by
  unfold targets
  rw [getElem?_set_rank]
  by_cases e : u = v
  · subst e
    cases h : g[u]? <;> simp
  · simp [e]

theorem length_push_target (g : graph) (v : Nat) (e : Nat × Nat) :
    (g.push_target v e).length = g.length := by
  unfold push_target
  split <;> simp

theorem getElem?_push_target (g : graph) (v : Nat) (e : Nat × Nat) (u : Nat) :
    (g.push_target v e)[u]? =
      if u = v then g[u]?.map (fun nd => { nd with targets := e :: nd.targets })
      else g[u]? := by
  unfold push_target
  split
  · rename_i nd h
    by_cases e : u = v
    · subst e
      have hlt : u < g.length := by
        by_contra hge
        rw [List.getElem?_eq_none (by omega)] at h
        cases h
      simp [List.getElem?_set, hlt, h]
    · have e' : ¬ v = u := fun h => e h.symm
      simp [List.getElem?_set, e, e']
  · rename_i h
    by_cases e : u = v
    · subst e; simp [h]
    · simp [e]

theorem rank_push_target (g : graph) (v : Nat) (e : Nat × Nat) (u : Nat) :
    (g.push_target v e).rank u = g.rank u := by
  unfold rank
  rw [getElem?_push_target]
  by_cases h : u = v
  · subst h
    cases h' : g[u]? <;> simp
  · simp [h]

theorem targets_push_target_self (g : graph) (v : Nat) (e : Nat × Nat) (hv : v < g.length) :
    (g.push_target v e).targets v = e :: g.targets v := by
  unfold targets
  rw [getElem?_push_target]
  simp [List.getElem?_eq_getElem hv]

theorem targets_push_target_other (g : graph) (v : Nat) (e : Nat × Nat) (u : Nat)
    (h : u ≠ v) : (g.push_target v e).targets u = g.targets u := by
  unfold targets
  rw [getElem?_push_target]
  simp [h]

end graph

namespace pass.le

theorem refl (st : pass) : pass.le st st :=
  ⟨rfl, fun _ => rfl, fun _ => Nat.le_refl _, fun _ h => h, fun _ _ => rfl, fun _ _ => rfl,
    fun _ h h' => absurd h h', fun h => h⟩

theorem trans {a b c : pass} (h1 : pass.le a b) (h2 : pass.le b c) : pass.le a c where
  length := h2.length.trans h1.length
  targets u := (h2.targets u).trans (h1.targets u)
  rank_mono u := Nat.le_trans (h1.rank_mono u) (h2.rank_mono u)
  visited_sub x hx := h2.visited_sub x (h1.visited_sub x hx)
  rank_visited u hu :=
    (h2.rank_visited u (h1.visited_sub u hu)).trans (h1.rank_visited u hu)
  rank_fresh u hu :=
    (h2.rank_fresh u hu).trans (h1.rank_fresh u fun h => hu (h2.visited_sub u h))
  rank_new u hu hua := by
    by_cases hub : u ∈ b.visited
    · exact Nat.lt_of_lt_of_le (h1.rank_new u hub hua) (h2.rank_mono u)
    · exact Nat.lt_of_le_of_lt (h1.rank_mono u) (h2.rank_new u hu hub)
  starved_mono h := h2.starved_mono (h1.starved_mono h)

end pass.le

/-- A loop whose rounds change the state by a reflexive and transitive
relation `R` changes it by `R` as a whole, and what a round establishes for its
element still holds at the end when `R` preserves it. -/
theorem foldl_rel_post {α β : Type} (R : α → α → Prop) (hrefl : ∀ a, R a a)
    (htrans : ∀ a b c, R a b → R b c → R a c) (P : β → α → Prop)
    (hstable : ∀ e a b, R a b → P e a → P e b) (f : α → β → α) (l : List β) (a0 : α)
    (hstep : ∀ a, R a0 a → ∀ e, e ∈ l → R a (f a e) ∧ P e (f a e)) :
    R a0 (l.foldl f a0) ∧ ∀ e, e ∈ l → P e (l.foldl f a0) := by
  have main : ∀ (l' : List β), (∀ e, e ∈ l' → e ∈ l) → ∀ a, R a0 a →
      R a (l'.foldl f a) ∧ ∀ e, e ∈ l' → P e (l'.foldl f a) := by
    intro l'
    induction l' with
    | nil => exact fun _ a _ => ⟨hrefl a, fun e he => by cases he⟩
    | cons e l' ih =>
      intro hsub a ha
      have hs := hstep a ha e (hsub e (List.mem_cons_self _ _))
      have hrec := ih (fun e' he' => hsub e' (List.mem_cons_of_mem _ he')) (f a e)
        (htrans _ _ _ ha hs.1)
      simp only [List.foldl_cons]
      refine ⟨htrans _ _ _ hs.1 hrec.1, ?_⟩
      intro e' he'
      rcases List.mem_cons.1 he' with rfl | h
      · exact hstable _ _ _ hrec.1 hs.2
      · exact hrec.2 e' h
  exact main l (fun _ h => h) a0 (hrefl a0)

theorem unbounded.ensure_bigger_than_le (fuel : Nat) (st : pass) (v limit : Nat) :
    pass.le st (unbounded.ensure_bigger_than fuel st v limit).1 := by
  induction fuel generalizing st v limit with
  | zero => exact ⟨rfl, fun _ => rfl, fun _ => Nat.le_refl _, fun _ h => h,
      fun _ _ => rfl, fun _ _ => rfl, fun _ h h' => absurd h h', fun _ => rfl⟩
  | succ fuel ih =>
    unfold unbounded.ensure_bigger_than
    split
    · exact pass.le.refl st
    split
    · exact pass.le.refl st
    · rename_i hv hguard
      simp only [Bool.or_eq_true, decide_eq_true_eq, not_or, Nat.not_lt] at hguard
      have hv' : v < st.g.length := by omega
      have h1 : pass.le st ⟨st.g.set_rank v (limit + 1), v :: st.visited, st.starved⟩ := by
        refine ⟨graph.length_set_rank _ _ _, graph.targets_set_rank _ _ _, ?_, ?_, ?_, ?_,
          ?_, fun h => h⟩
        · intro u
          simp only [graph.rank_set_rank]
          split
          · rename_i h; rw [h.1]; omega
          · exact Nat.le_refl _
        · intro x hx; exact List.mem_cons_of_mem _ hx
        · intro u hu
          simp only [graph.rank_set_rank]
          rw [if_neg]
          rintro ⟨rfl, _⟩
          exact hguard.2 hu
        · intro u hu
          simp only [graph.rank_set_rank]
          rw [if_neg]
          rintro ⟨rfl, _⟩
          exact hu (List.mem_cons_self _ _)
        · intro u hu hus
          rcases List.mem_cons.1 hu with rfl | h
          · simp only [graph.rank_set_rank, hv', and_self, if_true]
            omega
          · exact absurd h hus
      refine pass.le.trans h1 ?_
      exact (foldl_rel_post pass.le pass.le.refl (fun _ _ _ => pass.le.trans)
        (fun _ _ => True) (fun _ _ _ _ _ => trivial) _ _ _
        (fun a _ e _ => ⟨ih a e.2 (limit + 1), trivial⟩)).1

theorem graph.reach_congr (g g' : graph) (h : ∀ u, g'.targets u = g.targets u)
    (a b : Nat) (hr : g'.reach a b) : g.reach a b := by
  refine Relation.ReflTransGen.mono ?_ hr
  rintro x y ⟨o, ho⟩
  exact ⟨o, by rw [← h x]; exact ho⟩

/-- The pass started at `v` visits only nodes that can be reached from `v`. -/
theorem unbounded.ensure_bigger_than_reach (fuel : Nat) (st : pass) (v limit : Nat) :
    ∀ x, x ∈ (unbounded.ensure_bigger_than fuel st v limit).1.visited →
      x ∈ st.visited ∨ st.g.reach v x := by
  induction fuel generalizing st v limit with
  | zero => exact fun x hx => Or.inl hx
  | succ fuel ih =>
    unfold unbounded.ensure_bigger_than
    split
    · exact fun x hx => Or.inl hx
    split
    · exact fun x hx => Or.inl hx
    · have key := foldl_rel_post
        (fun a b : pass => pass.le a b ∧ ∀ x, x ∈ b.visited → x ∈ a.visited ∨ a.g.reach v x)
        (fun a => ⟨pass.le.refl a, fun x hx => Or.inl hx⟩)
        (fun a b c hab hbc => ⟨hab.1.trans hbc.1, fun x hx => by
          rcases hbc.2 x hx with h | h
          · exact hab.2 x h
          · exact Or.inr (graph.reach_congr a.g b.g hab.1.targets v x h)⟩)
        (fun _ _ => True) (fun _ _ _ _ _ => trivial)
        (fun st e => (unbounded.ensure_bigger_than fuel st e.2 (limit + 1)).1)
        (st.g.targets v)
        ⟨st.g.set_rank v (limit + 1), v :: st.visited, st.starved⟩
        (fun a ha e he => ⟨⟨unbounded.ensure_bigger_than_le fuel a e.2 (limit + 1), fun x hx => by
          rcases ih a e.2 (limit + 1) x hx with h | h
          · exact Or.inl h
          · refine Or.inr (Relation.ReflTransGen.head ?_ h)
            refine ⟨e.1, ?_⟩
            rw [ha.1.targets v, graph.targets_set_rank]
            exact he⟩, trivial⟩)
      intro x hx
      rcases key.1.2 x hx with h | h
      · rcases List.mem_cons.1 h with rfl | h'
        · exact Or.inr Relation.ReflTransGen.refl
        · exact Or.inl h'
      · exact Or.inr (graph.reach_congr st.g _ (graph.targets_set_rank _ _ _) v x h)

theorem pass.wf_length_le (st : pass) (h : st.wf) : st.visited.length ≤ st.g.length := by
  have hsub : st.visited ⊆ List.range st.g.length := fun x hx =>
    List.mem_range.2 (h.2 x hx)
  have := (List.subperm_of_subset h.1 hsub).length_le
  simpa using this

/-- With a budget above the number of nodes not yet visited, the pass does
not run out of budget. -/
theorem unbounded.ensure_bigger_than_not_starved (fuel : Nat) (st : pass) (v limit : Nat)
    (hwf : st.wf) (hfuel : st.g.length < fuel + st.visited.length) :
    (unbounded.ensure_bigger_than fuel st v limit).1.wf ∧
    (unbounded.ensure_bigger_than fuel st v limit).1.starved = st.starved ∧
    st.visited.length ≤ (unbounded.ensure_bigger_than fuel st v limit).1.visited.length := by
  induction fuel generalizing st v limit with
  | zero =>
    have := pass.wf_length_le st hwf
    omega
  | succ fuel ih =>
    unfold unbounded.ensure_bigger_than
    split
    · exact ⟨hwf, rfl, Nat.le_refl _⟩
    split
    · exact ⟨hwf, rfl, Nat.le_refl _⟩
    · rename_i hv hguard
      simp only [Bool.or_eq_true, decide_eq_true_eq, not_or, Nat.not_lt] at hguard
      have key := foldl_rel_post
        (fun a b : pass => pass.le a b ∧
          (a.wf → a.g.length < fuel + a.visited.length →
            b.wf ∧ b.starved = a.starved ∧ a.visited.length ≤ b.visited.length))
        (fun a => ⟨pass.le.refl a, fun h _ => ⟨h, rfl, Nat.le_refl _⟩⟩)
        (fun a b c hab hbc => ⟨hab.1.trans hbc.1, fun hw hf => by
          have h1 := hab.2 hw hf
          have h2 := hbc.2 h1.1 (by rw [hab.1.length]; omega)
          exact ⟨h2.1, h2.2.1.trans h1.2.1, Nat.le_trans h1.2.2 h2.2.2⟩⟩)
        (fun _ _ => True) (fun _ _ _ _ _ => trivial)
        (fun st e => (unbounded.ensure_bigger_than fuel st e.2 (limit + 1)).1)
        (st.g.targets v)
        ⟨st.g.set_rank v (limit + 1), v :: st.visited, st.starved⟩
        (fun a _ e _ => ⟨⟨unbounded.ensure_bigger_than_le fuel a e.2 (limit + 1),
          fun hw hf => ih a e.2 (limit + 1) hw hf⟩, trivial⟩)
      have hwf1 : pass.wf ⟨st.g.set_rank v (limit + 1), v :: st.visited, st.starved⟩ := by
        refine ⟨List.nodup_cons.2 ⟨hguard.2, hwf.1⟩, ?_⟩
        intro x hx
        simp only [graph.length_set_rank]
        rcases List.mem_cons.1 hx with rfl | h
        · omega
        · exact hwf.2 x h
      have := key.1.2 hwf1 (by simp only [graph.length_set_rank, List.length_cons]; omega)
      refine ⟨this.1, this.2.1, ?_⟩
      have h3 := this.2.2
      dsimp only at h3 ⊢
      simp only [List.length_cons] at h3
      omega

theorem pass.edges_ok_refl (st : pass) : pass.edges_ok st st :=
  Or.inr fun _ hx hnx => absurd hx hnx

theorem pass.edges_ok_trans {a b c : pass} (hbc : pass.le b c)
    (h1 : pass.edges_ok a b) (h2 : pass.edges_ok b c) : pass.edges_ok a c := by
  by_cases hc : c.starved = true
  · exact Or.inl hc
  have hb : ¬ b.starved = true := fun h => hc (hbc.starved_mono h)
  rcases h1 with h1 | h1
  · exact absurd h1 hb
  rcases h2 with h2 | h2
  · exact absurd h2 hc
  refine Or.inr ?_
  intro x hx hxa e he hlt
  by_cases hxb : x ∈ b.visited
  · rw [hbc.targets x] at he
    rw [hbc.length] at hlt
    rcases h1 x hxb hxa e he hlt with h | h
    · exact Or.inl (hbc.visited_sub _ h)
    · refine Or.inr ?_
      rw [hbc.rank_visited x hxb]
      exact Nat.lt_of_lt_of_le h (hbc.rank_mono _)
  · exact h2 x hx hxb e he hlt

/-- Unless the budget ran out: the nodes visited in the pass have all their
targets visited or ranked above them, and the node the pass was started at is
afterwards no node of the graph, visited, or ranked above the limit. -/
theorem unbounded.ensure_bigger_than_edges (fuel : Nat) (st : pass) (v limit : Nat) :
    pass.edges_ok st (unbounded.ensure_bigger_than fuel st v limit).1 ∧
    ((unbounded.ensure_bigger_than fuel st v limit).1.starved = true ∨ st.g.length ≤ v ∨
      v ∈ (unbounded.ensure_bigger_than fuel st v limit).1.visited ∨
      limit < (unbounded.ensure_bigger_than fuel st v limit).1.g.rank v) := by
  induction fuel generalizing st v limit with
  | zero => exact ⟨Or.inl rfl, Or.inl rfl⟩
  | succ fuel ih =>
    unfold unbounded.ensure_bigger_than
    split
    · rename_i hv
      exact ⟨pass.edges_ok_refl st, Or.inr (Or.inl hv)⟩
    split
    · rename_i hv hguard
      simp only [Bool.or_eq_true, decide_eq_true_eq] at hguard
      refine ⟨pass.edges_ok_refl st, Or.inr (Or.inr ?_)⟩
      rcases hguard with h | h
      · exact Or.inr h
      · exact Or.inl h
    · rename_i hv hguard
      simp only [Bool.or_eq_true, decide_eq_true_eq, not_or, Nat.not_lt] at hguard
      have hv' : v < st.g.length := by omega
      have key := foldl_rel_post
        (fun a b : pass => pass.le a b ∧ pass.edges_ok a b)
        (fun a => ⟨pass.le.refl a, pass.edges_ok_refl a⟩)
        (fun a b c hab hbc =>
          ⟨hab.1.trans hbc.1, pass.edges_ok_trans hbc.1 hab.2 hbc.2⟩)
        (fun (e : Nat × Nat) (b : pass) => b.starved = true ∨ st.g.length ≤ e.2 ∨
          e.2 ∈ b.visited ∨ limit + 1 < b.g.rank e.2)
        (fun _ a b hab h => by
          rcases h with h | h | h | h
          · exact Or.inl (hab.1.starved_mono h)
          · exact Or.inr (Or.inl h)
          · exact Or.inr (Or.inr (Or.inl (hab.1.visited_sub _ h)))
          · exact Or.inr (Or.inr (Or.inr (Nat.lt_of_lt_of_le h (hab.1.rank_mono _)))))
        (fun st e => (unbounded.ensure_bigger_than fuel st e.2 (limit + 1)).1)
        (st.g.targets v)
        ⟨st.g.set_rank v (limit + 1), v :: st.visited, st.starved⟩
        (fun a ha e _ => ⟨⟨unbounded.ensure_bigger_than_le fuel a e.2 (limit + 1),
          (ih a e.2 (limit + 1)).1⟩, by
            have hlen : a.g.length = st.g.length := by
              rw [ha.1.length]; exact graph.length_set_rank _ _ _
            have := (ih a e.2 (limit + 1)).2
            rw [hlen] at this
            exact this⟩)
      obtain ⟨⟨hle, hedges⟩, hpost⟩ := key
      have hvis : v ∈ (List.foldl
          (fun st e => (unbounded.ensure_bigger_than fuel st e.2 (limit + 1)).1)
          ⟨st.g.set_rank v (limit + 1), v :: st.visited, st.starved⟩
          (st.g.targets v)).visited := hle.visited_sub v (List.mem_cons_self _ _)
      refine ⟨?_, Or.inr (Or.inr (Or.inl hvis))⟩
      rcases hedges with hs | hedges
      · exact Or.inl hs
      by_cases hs : (List.foldl
          (fun st e => (unbounded.ensure_bigger_than fuel st e.2 (limit + 1)).1)
          ⟨st.g.set_rank v (limit + 1), v :: st.visited, st.starved⟩
          (st.g.targets v)).starved = true
      · exact Or.inl hs
      refine Or.inr ?_
      intro x hx hxs e he hlt
      by_cases hx1 : x ∈ v :: st.visited
      · -- `x` is the node `v` itself
        rcases List.mem_cons.1 hx1 with rfl | h
        · rw [hle.targets, graph.targets_set_rank] at he
          rw [hle.length, graph.length_set_rank] at hlt
          rcases hpost e he with h | h | h | h
          · exact absurd h hs
          · omega
          · exact Or.inl h
          · refine Or.inr ?_
            rw [hle.rank_visited x (List.mem_cons_self _ _), graph.rank_set_rank]
            simp only [hv', and_self, if_true]
            exact h
        · exact absurd h hxs
      · exact hedges x hx hx1 e he hlt

theorem unbounded.ensure_bigger_than_result (fuel : Nat) (st : pass) (v limit : Nat) :
    (unbounded.ensure_bigger_than (fuel + 1) st v limit).2 =
      decide (v < st.g.length ∧ st.g.rank v ≤ limit ∧ v ∉ st.visited) := by
  unfold unbounded.ensure_bigger_than
  split
  · rename_i h
    simp only [Bool.false_eq, decide_eq_false_iff_not]
    omega
  split
  · rename_i h1 h2
    simp only [Bool.or_eq_true, decide_eq_true_eq] at h2
    simp only [Bool.false_eq, decide_eq_false_iff_not]
    rintro ⟨_, h3, h4⟩
    rcases h2 with h | h
    · omega
    · exact h4 h
  · rename_i h1 h2
    simp only [Bool.or_eq_true, decide_eq_true_eq, not_or, Nat.not_lt] at h2
    simp only [Bool.true_eq, decide_eq_true_eq]
    exact ⟨by omega, h2.1, h2.2⟩

theorem unbounded.ensure_bigger_than_false (fuel : Nat) (st : pass) (v limit : Nat)
    (h : (unbounded.ensure_bigger_than (fuel + 1) st v limit).2 = false) :
    (unbounded.ensure_bigger_than (fuel + 1) st v limit).1 = st := by
  revert h
  unfold unbounded.ensure_bigger_than
  split
  · exact fun _ => rfl
  split
  · exact fun _ => rfl
  · intro h; cases h

/-- When the rank of `v` is increased, it is `limit + 1` after the pass. -/
theorem unbounded.ensure_bigger_than_rank (fuel : Nat) (st : pass) (v limit : Nat)
    (h : (unbounded.ensure_bigger_than (fuel + 1) st v limit).2 = true) :
    (unbounded.ensure_bigger_than (fuel + 1) st v limit).1.g.rank v = limit + 1 := by
  have hres := unbounded.ensure_bigger_than_result fuel st v limit
  rw [h] at hres
  simp only [Bool.true_eq, decide_eq_true_eq] at hres
  revert h
  unfold unbounded.ensure_bigger_than
  split
  · intro h; cases h
  split
  · intro h; cases h
  · intro _
    have hle := (foldl_rel_post pass.le pass.le.refl (fun _ _ _ => pass.le.trans)
        (fun _ _ => True) (fun _ _ _ _ _ => trivial)
        (fun st (e : Nat × Nat) => (unbounded.ensure_bigger_than fuel st e.2 (limit + 1)).1)
        (st.g.targets v) ⟨st.g.set_rank v (limit + 1), v :: st.visited, st.starved⟩
        (fun a _ e _ => ⟨unbounded.ensure_bigger_than_le fuel a e.2 (limit + 1), trivial⟩)).1
    dsimp only
    rw [hle.rank_visited v (List.mem_cons_self _ _), graph.rank_set_rank]
    simp [hres.1]

theorem graph.rank_invariant_iff (g : graph) :
    g.rank_invariant = true ↔
      ∀ a, a < g.length → ∀ e, e ∈ g.targets a → e.2 < g.length → g.rank a < g.rank e.2 := by
  simp only [graph.rank_invariant, List.all_eq_true, List.mem_range, decide_eq_true_eq]

theorem graph.targets_eq_nil (g : graph) (a : Nat) (h : g.length ≤ a) : g.targets a = [] := by
  simp [graph.targets, List.getElem?_eq_none h]

/-- A graph that satisfies the rank invariant has no cycle. -/
theorem graph.rank_invariant_acyclic (g : graph) (h : g.rank_invariant = true) (a : Nat) :
    ¬ Relation.TransGen g.edge a a := by
  rw [graph.rank_invariant_iff] at h
  have valid : ∀ x y, g.edge x y → x < g.length := by
    rintro x y ⟨o, ho⟩
    by_contra hx
    rw [graph.targets_eq_nil g x (by omega)] at ho
    cases ho
  have key : ∀ b, Relation.TransGen g.edge a b → b < g.length → g.rank a < g.rank b := by
    intro b hab
    induction hab with
    | single hedge =>
      intro hb
      obtain ⟨o, ho⟩ := hedge
      exact h a (valid _ _ ⟨o, ho⟩) (o, _) ho hb
    | tail _ hedge ih =>
      intro hb
      have hc := valid _ _ hedge
      obtain ⟨o, ho⟩ := hedge
      exact Nat.lt_trans (ih hc) (h _ hc (o, _) ho hb)
  intro hcyc
  have ha : a < g.length := by
    rcases Relation.TransGen.head'_iff.1 hcyc with ⟨c, hedge, _⟩
    exact valid _ _ hedge
  exact Nat.lt_irrefl _ (key a hcyc ha)

theorem unbounded.link_pass_le (g : graph) (n t : Nat) :
    pass.le ⟨g, [], false⟩ (unbounded.link_pass g n t).1 :=
  unbounded.ensure_bigger_than_le _ _ _ _

/-- The pass of `link` does not run out of its budget. -/
theorem unbounded.link_not_starved (g : graph) (n t : Nat) :
    (unbounded.link_pass g n t).1.starved = false :=
  (unbounded.ensure_bigger_than_not_starved (g.length + 1) ⟨g, [], false⟩ t (g.rank n)
    ⟨List.nodup_nil, fun _ h => by cases h⟩ (by simp)).2.1

/-- When `link` returns `false`, no rank has changed. -/
theorem unbounded.link_false_rank (g : graph) (n holder t : Nat)
    (h : (unbounded.link g n holder t).2 = false) (u : Nat) :
    (unbounded.link g n holder t).1.rank u = g.rank u := by
  have hp : (unbounded.link_pass g n t).1 = ⟨g, [], false⟩ :=
    unbounded.ensure_bigger_than_false _ _ _ _ h
  simp only [unbounded.link, graph.rank_push_target, hp]

theorem unbounded.link_rank (g : graph) (n holder t u : Nat) :
    (unbounded.link g n holder t).1.rank u = (unbounded.link_pass g n t).1.g.rank u := by
  simp only [unbounded.link, graph.rank_push_target]

/-- Two folds agree when their functions agree on every state that the fold
can reach. -/
theorem foldl_congr_inv {α β : Type} (Inv : α → Prop) (f g : α → β → α) (l : List β)
    (hstep : ∀ a e, Inv a → e ∈ l → f a e = g a e ∧ Inv (g a e)) :
    ∀ a0, Inv a0 → l.foldl f a0 = l.foldl g a0 := by
  induction l with
  | nil => intro _ _; rfl
  | cons e l ih =>
    intro a0 h0
    have h := hstep a0 e h0 (List.mem_cons_self _ _)
    simp only [List.foldl_cons]
    rw [h.1]
    exact ih (fun a e' ha he' => hstep a e' ha (List.mem_cons_of_mem _ he')) _ h.2

/-- As long as the limit leaves room for one rank per node not yet visited,
no rank set in the pass reaches `2 ^ w`, and the pass is the one computed in
the natural numbers. -/
theorem ensure_bigger_than_eq_unbounded (w fuel : Nat) (st : pass) (v limit : Nat)
    (hwf : st.wf) (hfuel : st.g.length < fuel + st.visited.length)
    (hroom : limit + st.g.length < 2 ^ w + st.visited.length) :
    ensure_bigger_than w fuel st v limit = unbounded.ensure_bigger_than fuel st v limit := by
  induction fuel generalizing st v limit with
  | zero =>
    unfold ensure_bigger_than unbounded.ensure_bigger_than
    rfl
  | succ fuel ih =>
    unfold ensure_bigger_than unbounded.ensure_bigger_than
    by_cases h1 : st.g.length ≤ v
    · rw [if_pos h1, if_pos h1]
    rw [if_neg h1, if_neg h1]
    by_cases h2 : (limit < st.g.rank v || decide (v ∈ st.visited)) = true
    · rw [if_pos h2, if_pos h2]
    rw [if_neg h2, if_neg h2]
    simp only [Bool.or_eq_true, decide_eq_true_eq, not_or, Nat.not_lt] at h2
    have hwf1 : pass.wf ⟨st.g.set_rank v (limit + 1), v :: st.visited, st.starved⟩ := by
      refine ⟨List.nodup_cons.2 ⟨h2.2, hwf.1⟩, ?_⟩
      intro x hx
      simp only [graph.length_set_rank]
      rcases List.mem_cons.1 hx with rfl | h
      · omega
      · exact hwf.2 x h
    have hlen1 := pass.wf_length_le _ hwf1
    simp only [graph.length_set_rank, List.length_cons] at hlen1
    have hmod : (limit + 1) % 2 ^ w = limit + 1 := Nat.mod_eq_of_lt (by omega)
    simp only [hmod]
    congr 1
    refine foldl_congr_inv
      (fun a : pass => a.wf ∧ a.g.length = st.g.length ∧
        st.visited.length + 1 ≤ a.visited.length) _ _ _ ?_ _ ?_
    · rintro a e ⟨hawf, halen, havis⟩ _
      have heq := ih a e.2 (limit + 1) hawf (by omega) (by omega)
      have hns := unbounded.ensure_bigger_than_not_starved fuel a e.2 (limit + 1) hawf
        (by omega)
      have hle := unbounded.ensure_bigger_than_le fuel a e.2 (limit + 1)
      refine ⟨by rw [heq], hns.1, by rw [hle.length, halen], ?_⟩
      exact Nat.le_trans havis hns.2.2
    · exact ⟨hwf1, graph.length_set_rank _ _ _, by simp⟩

theorem link_pass_eq_unbounded (w : Nat) (g : graph) (n t : Nat)
    (hw : g.rank n + g.length < 2 ^ w) : link_pass w g n t = unbounded.link_pass g n t :=
  ensure_bigger_than_eq_unbounded w (g.length + 1) ⟨g, [], false⟩ t (g.rank n)
    ⟨List.nodup_nil, fun _ h => by cases h⟩ (by simp) (by simpa using hw)

theorem link_eq_unbounded (w : Nat) (g : graph) (n holder t : Nat)
    (hw : g.rank n + g.length < 2 ^ w) : link w g n holder t = unbounded.link g n holder t := by
  simp only [link, unbounded.link, link_pass_eq_unbounded w g n t hw]

theorem graph.in_range_iff (w : Nat) (g : graph) :
    g.in_range w = true ↔ ∀ u, g.rank u < 2 ^ w := by
  simp only [graph.in_range, List.all_eq_true, decide_eq_true_eq]
  constructor
  · intro h u
    unfold graph.rank
    cases hu : g[u]? with
    | none => exact Nat.two_pow_pos w
    | some nd => exact h nd (List.getElem?_mem hu)
  · intro h nd hnd
    obtain ⟨i, hi⟩ := List.getElem?_of_mem hnd
    have := h i
    simpa [graph.rank, hi] using this

/-- The pass sets only values of `rank_t`. -/
theorem ensure_bigger_than_in_range (w fuel : Nat) (st : pass) (v limit : Nat)
    (h : ∀ u, st.g.rank u < 2 ^ w) :
    ∀ u, (ensure_bigger_than w fuel st v limit).1.g.rank u < 2 ^ w := by
  induction fuel generalizing st v limit with
  | zero => exact h
  | succ fuel ih =>
    unfold ensure_bigger_than
    split
    · exact h
    split
    · exact h
    · have key := foldl_rel_post
        (fun a b : pass => (∀ u, a.g.rank u < 2 ^ w) → ∀ u, b.g.rank u < 2 ^ w)
        (fun _ h => h) (fun _ _ _ hab hbc h => hbc (hab h))
        (fun _ _ => True) (fun _ _ _ _ _ => trivial)
        (fun st (e : Nat × Nat) => (ensure_bigger_than w fuel st e.2 ((limit + 1) % 2 ^ w)).1)
        (st.g.targets v)
        ⟨st.g.set_rank v ((limit + 1) % 2 ^ w), v :: st.visited, st.starved⟩
        (fun a _ e _ => ⟨fun ha => ih a e.2 ((limit + 1) % 2 ^ w) ha, trivial⟩)
      refine key.1 ?_
      intro u
      simp only [graph.rank_set_rank]
      split
      · exact Nat.mod_lt _ (Nat.two_pow_pos w)
      · exact h u

theorem link_in_range (w : Nat) (g : graph) (n holder t : Nat) (h : g.in_range w = true) :
    (link w g n holder t).1.in_range w = true := by
  rw [graph.in_range_iff] at h ⊢
  intro u
  simp only [link, graph.rank_push_target]
  exact ensure_bigger_than_in_range w _ _ _ _ h u

/-- When the nodes in `S` have levels, `L b = L a + 1` for every edge `a → b`
from a node of `S`, and the pass is started at a node `v` of `S` with the
limit `L v - 1`, every node visited gets the rank of its level. -/
theorem unbounded.ensure_bigger_than_level (S : Nat → Prop) (L : Nat → Nat) (fuel : Nat)
    (st : pass) (v limit : Nat)
    (hL : ∀ a e, S a → e ∈ st.g.targets a → S e.2 ∧ L e.2 = L a + 1)
    (hv : S v) (hlimit : limit + 1 = L v)
    (hinv : ∀ x, x ∈ st.visited → st.g.rank x = L x) :
    ∀ x, x ∈ (unbounded.ensure_bigger_than fuel st v limit).1.visited →
      (unbounded.ensure_bigger_than fuel st v limit).1.g.rank x = L x := by
  induction fuel generalizing st v limit with
  | zero => exact hinv
  | succ fuel ih =>
    unfold unbounded.ensure_bigger_than
    split
    · exact hinv
    split
    · exact hinv
    · rename_i hv1 hguard
      simp only [Bool.or_eq_true, decide_eq_true_eq, not_or, Nat.not_lt] at hguard
      have hv' : v < st.g.length := by omega
      have key := foldl_rel_post
        (fun a b : pass => pass.le a b ∧
          ((∀ x, x ∈ a.visited → a.g.rank x = L x) → ∀ x, x ∈ b.visited → b.g.rank x = L x))
        (fun a => ⟨pass.le.refl a, fun h => h⟩)
        (fun a b c hab hbc => ⟨hab.1.trans hbc.1, fun h => hbc.2 (hab.2 h)⟩)
        (fun _ _ => True) (fun _ _ _ _ _ => trivial)
        (fun st e => (unbounded.ensure_bigger_than fuel st e.2 (limit + 1)).1)
        (st.g.targets v)
        ⟨st.g.set_rank v (limit + 1), v :: st.visited, st.starved⟩
        (fun a ha e he => ⟨⟨unbounded.ensure_bigger_than_le fuel a e.2 (limit + 1),
          fun h => ih a e.2 (limit + 1)
            (fun a' e' hS he' => hL a' e' hS (by
              rw [ha.1.targets, graph.targets_set_rank] at he'
              exact he'))
            (hL v e hv he).1 (by rw [(hL v e hv he).2]; omega) h⟩, trivial⟩)
      refine key.1.2 ?_
      intro x hx
      simp only [graph.rank_set_rank]
      rcases List.mem_cons.1 hx with rfl | h
      · simp only [hv', and_self, if_true]
        exact hlimit
      · rw [if_neg]
        · exact hinv x h
        · rintro ⟨rfl, _⟩
          exact hguard.2 h

/-- What `link` does when computed in the natural numbers, on a graph that
satisfies the rank invariant, the new edge closing no cycle. -/
theorem unbounded.link_spec (g : graph) (n owner t : Nat)
    (hinv : g.rank_invariant = true) (hn : n < g.length) (ht : t < g.length)
    (hno : ¬ g.reach t n) :
    (unbounded.link_pass g n t).1.starved = false ∧
    (unbounded.link g n owner t).1.targets n = (owner, t) :: g.targets n ∧
    (∀ u, u ≠ n → (unbounded.link g n owner t).1.targets u = g.targets u) ∧
    (unbounded.link g n owner t).1.rank n < (unbounded.link g n owner t).1.rank t ∧
    (∀ u, g.rank u ≤ (unbounded.link g n owner t).1.rank u) ∧
    ((unbounded.link g n owner t).2 = true ↔ g.rank t ≤ g.rank n) ∧
    ((unbounded.link g n owner t).2 = true ↔ g.rank t < (unbounded.link g n owner t).1.rank t) ∧
    (∀ a e, e ∈ (unbounded.link g n owner t).1.targets a → e.2 < g.length →
      ((unbounded.link g n owner t).1.rank a = g.rank a ∨
        (unbounded.link g n owner t).1.rank e.2 = g.rank e.2) →
      (unbounded.link g n owner t).1.rank a < (unbounded.link g n owner t).1.rank e.2) ∧
    ((∃ d : Nat → Nat, ∀ a b, g.reach t a → g.edge a b → d b = d a + 1) →
      (unbounded.link g n owner t).1.rank_invariant = true) := by
  have hle := unbounded.link_pass_le g n t
  have hst := unbounded.link_not_starved g n t
  have hlen : (unbounded.link_pass g n t).1.g.length = g.length := hle.length
  have hmono : ∀ u, g.rank u ≤ (unbounded.link_pass g n t).1.g.rank u := hle.rank_mono
  have hnew : ∀ u, u ∈ (unbounded.link_pass g n t).1.visited →
      g.rank u < (unbounded.link_pass g n t).1.g.rank u :=
    fun u h => hle.rank_new u h (by simp)
  have hfresh : ∀ u, u ∉ (unbounded.link_pass g n t).1.visited →
      (unbounded.link_pass g n t).1.g.rank u = g.rank u :=
    hle.rank_fresh
  have htargets : ∀ u, (unbounded.link_pass g n t).1.g.targets u = g.targets u := hle.targets
  have hres : (unbounded.link_pass g n t).2
      = decide (t < g.length ∧ g.rank t ≤ g.rank n ∧ t ∉ []) :=
    unbounded.ensure_bigger_than_result _ _ _ _
  simp only [ht, List.not_mem_nil, not_false_eq_true, and_true, true_and] at hres
  -- `n` is not visited, so its rank is unchanged
  have hnv : n ∉ (unbounded.link_pass g n t).1.visited := by
    intro h
    rcases unbounded.ensure_bigger_than_reach _ _ _ _ n h with h' | h'
    · cases h'
    · exact hno h'
  have hrn : (unbounded.link_pass g n t).1.g.rank n = g.rank n := hfresh n hnv
  -- the rank of `t` after the call
  have hrt : g.rank n < (unbounded.link_pass g n t).1.g.rank t := by
    cases hb : (unbounded.link_pass g n t).2
    · rw [hb] at hres
      have : ¬ g.rank t ≤ g.rank n := by simpa using hres.symm
      exact Nat.lt_of_lt_of_le (by omega) (hmono t)
    · have := unbounded.ensure_bigger_than_rank _ _ _ _ hb
      unfold unbounded.link_pass
      rw [this]
      omega
  have htn : (unbounded.link g n owner t).1.targets n = (owner, t) :: g.targets n := by
    simp only [unbounded.link]
    rw [graph.targets_push_target_self _ _ _ (by omega), htargets]
  have hto : ∀ u, u ≠ n → (unbounded.link g n owner t).1.targets u = g.targets u := by
    intro u hu
    simp only [unbounded.link]
    rw [graph.targets_push_target_other _ _ _ _ hu, htargets]
  have hraised : (unbounded.link g n owner t).2 = true ↔ g.rank t ≤ g.rank n := by
    show (unbounded.link_pass g n t).2 = true ↔ _
    rw [hres]; simp
  have hedges : ∀ a, a ∈ (unbounded.link_pass g n t).1.visited → ∀ e, e ∈ g.targets a →
      e.2 < g.length → e.2 ∈ (unbounded.link_pass g n t).1.visited ∨
        (unbounded.link_pass g n t).1.g.rank a < (unbounded.link_pass g n t).1.g.rank e.2 := by
    intro a hav e hold hlt
    have hedges0 : pass.edges_ok ⟨g, [], false⟩ (unbounded.link_pass g n t).1 :=
      (unbounded.ensure_bigger_than_edges (g.length + 1) ⟨g, [], false⟩ t (g.rank n)).1
    rcases hedges0 with hs | hedges
    · rw [hst] at hs
      cases hs
    · exact hedges a hav (by simp) e (by rw [htargets]; exact hold) (by rw [hlen]; exact hlt)
  have hcases : ∀ a e, e ∈ (unbounded.link g n owner t).1.targets a →
      (a = n ∧ e = (owner, t)) ∨ e ∈ g.targets a := by
    intro a e he
    by_cases han : a = n
    · subst han
      rw [htn] at he
      rcases List.mem_cons.1 he with h | h
      · exact Or.inl ⟨rfl, h⟩
      · exact Or.inr h
    · rw [hto a han] at he
      exact Or.inr he
  have hvalid : ∀ a e, e ∈ g.targets a → a < g.length := by
    intro a e hold
    by_contra hge
    rw [graph.targets_eq_nil g a (by omega)] at hold
    cases hold
  refine ⟨hst, htn, hto, ?_, ?_, hraised, ?_, ?_, ?_⟩
  · rw [unbounded.link_rank, unbounded.link_rank, hrn]; exact hrt
  · intro u; rw [unbounded.link_rank]; exact hmono u
  · rw [unbounded.link_rank]
    constructor
    · intro h
      exact Nat.lt_of_le_of_lt (hraised.1 h) hrt
    · intro h
      by_contra hb
      simp only [Bool.not_eq_true] at hb
      have := unbounded.link_false_rank g n owner t hb t
      rw [unbounded.link_rank] at this
      omega
  · intro a e he hlt hkept
    simp only [unbounded.link_rank] at hkept ⊢
    rcases hcases a e he with ⟨rfl, rfl⟩ | hold
    · rw [hrn]; exact hrt
    · have hbefore := (graph.rank_invariant_iff g).1 hinv a (hvalid a e hold) e hold hlt
      rcases hkept with hk | hk
      · rw [hk]
        exact Nat.lt_of_lt_of_le hbefore (hmono _)
      · -- the target kept its rank, so it was not visited
        have he2 : e.2 ∉ (unbounded.link_pass g n t).1.visited := by
          intro h
          have := hnew e.2 h
          omega
        by_cases hav : a ∈ (unbounded.link_pass g n t).1.visited
        · rcases hedges a hav e hold hlt with h | h
          · exact absurd h he2
          · exact h
        · rw [hfresh a hav]
          exact Nat.lt_of_lt_of_le hbefore (hmono _)
  · rintro ⟨d, hd⟩
    rw [graph.rank_invariant_iff]
    intro a _ e he hlt
    have hlen' : (unbounded.link g n owner t).1.length = g.length := by
      simp only [unbounded.link, graph.length_push_target]
      exact hlen
    rw [hlen'] at hlt
    simp only [unbounded.link_rank]
    have hdge : ∀ x, g.reach t x → d t ≤ d x := by
      intro x hr
      induction hr with
      | refl => exact Nat.le_refl _
      | tail hab hbc ih =>
        have := hd _ _ hab hbc
        omega
    have hlevel := unbounded.ensure_bigger_than_level (fun x => g.reach t x)
      (fun x => g.rank n + 1 + (d x - d t)) (g.length + 1) ⟨g, [], false⟩ t (g.rank n)
      (fun x e hS he => ⟨Relation.ReflTransGen.tail hS ⟨e.1, he⟩, by
        have h1 := hd x e.2 hS ⟨e.1, he⟩
        have h2 := hdge x hS
        show g.rank n + 1 + (d e.2 - d t) = g.rank n + 1 + (d x - d t) + 1
        omega⟩)
      Relation.ReflTransGen.refl (by simp) (fun x hx => by cases hx)
    have hreach : ∀ x, x ∈ (unbounded.link_pass g n t).1.visited → g.reach t x := by
      intro x hx
      rcases unbounded.ensure_bigger_than_reach _ _ _ _ x hx with h | h
      · cases h
      · exact h
    rcases hcases a e he with ⟨rfl, rfl⟩ | hold
    · rw [hrn]; exact hrt
    · have hbefore := (graph.rank_invariant_iff g).1 hinv a (hvalid a e hold) e hold hlt
      by_cases hav : a ∈ (unbounded.link_pass g n t).1.visited
      · rcases hedges a hav e hold hlt with h | h
        · have h1 := hlevel a hav
          have h2 := hlevel e.2 h
          have h3 := hd a e.2 (hreach a hav) ⟨e.1, hold⟩
          have h4 := hdge a (hreach a hav)
          show (unbounded.link_pass g n t).1.g.rank a < (unbounded.link_pass g n t).1.g.rank e.2
          unfold unbounded.link_pass at h1 h2 ⊢
          rw [h1, h2]
          dsimp only
          omega
        · exact h
      · rw [hfresh a hav]
        exact Nat.lt_of_lt_of_le hbefore (hmono _)

/-- In the graph with the edges `1 → 3`, `1 → 2`, `2 → 3`, node `0` cannot be
reached from node `1`. -/
theorem graph.reach_diamond :
    ¬ graph.reach [⟨5, []⟩, ⟨0, [(0, 3), (0, 2)]⟩, ⟨1, [(0, 3)]⟩, ⟨2, []⟩] 1 0 := by
  have key : ∀ x, graph.reach [⟨5, []⟩, ⟨0, [(0, 3), (0, 2)]⟩, ⟨1, [(0, 3)]⟩, ⟨2, []⟩] 1 x →
      x = 1 ∨ x = 2 ∨ x = 3 := by
    intro x hx
    induction hx with
    | refl => exact Or.inl rfl
    | tail _ hedge ih =>
      obtain ⟨o, ho⟩ := hedge
      rcases ih with rfl | rfl | rfl
      · simp [graph.targets] at ho
        omega
      · simp [graph.targets] at ho
        omega
      · simp [graph.targets] at ho
  intro h
  have := key 0 h
  omega

/-- C8 fails as stated, with `unsigned long` of 64 bits.  First: nodes `0`
(rank 5), `1`, `2`, `3` (rank 0) without edges; after `1.link(2)`,
`2.link(3)`, `1.link(3)` the graph satisfies the rank invariant, it has no
cycle, and node `0` cannot be reached from node `1`.  Then `0.link(1)` raises
node `3` before node `2`, finds node `3` visited when it comes to it again
below node `2`, and leaves the edge `2 → 3` with equal ranks `7` and `7`.
Second: in the graph with the single edge `0 → 1`, `1.link(0)` closes a cycle
and leaves the target `0` with rank `2` below rank `3` of node `1`.  Third:
when node `0` has the largest rank `2^64 - 1`, `0.link(1)` sets the rank of
node `1` to `2^64 - 1 + 1`, which is `0` in `rank_t`: the call returns `true`
and the target is not ranked above node `0`. -/
theorem link_breaks_rank_invariant :
    (link 64 (link 64 (link 64 [⟨5, []⟩, ⟨0, []⟩, ⟨0, []⟩, ⟨0, []⟩] 1 0 2).1 2 0 3).1 1 0 3).1
      = [⟨5, []⟩, ⟨0, [(0, 3), (0, 2)]⟩, ⟨1, [(0, 3)]⟩, ⟨2, []⟩] ∧
    graph.rank_invariant [⟨5, []⟩, ⟨0, [(0, 3), (0, 2)]⟩, ⟨1, [(0, 3)]⟩, ⟨2, []⟩] = true ∧
    (∀ a, ¬ Relation.TransGen
      (graph.edge [⟨5, []⟩, ⟨0, [(0, 3), (0, 2)]⟩, ⟨1, [(0, 3)]⟩, ⟨2, []⟩]) a a) ∧
    ¬ graph.reach [⟨5, []⟩, ⟨0, [(0, 3), (0, 2)]⟩, ⟨1, [(0, 3)]⟩, ⟨2, []⟩] 1 0 ∧
    (link 64 [⟨5, []⟩, ⟨0, [(0, 3), (0, 2)]⟩, ⟨1, [(0, 3)]⟩, ⟨2, []⟩] 0 9 1).1
      = [⟨5, [(9, 1)]⟩, ⟨6, [(0, 3), (0, 2)]⟩, ⟨7, [(0, 3)]⟩, ⟨7, []⟩] ∧
    graph.rank_invariant
      (link 64 [⟨5, []⟩, ⟨0, [(0, 3), (0, 2)]⟩, ⟨1, [(0, 3)]⟩, ⟨2, []⟩] 0 9 1).1 = false ∧
    graph.rank_invariant [⟨0, [(0, 1)]⟩, ⟨1, []⟩] = true ∧
    (link 64 [⟨0, [(0, 1)]⟩, ⟨1, []⟩] 1 9 0).1 = [⟨2, [(0, 1)]⟩, ⟨3, [(9, 0)]⟩] ∧
    ¬ ((link 64 [⟨0, [(0, 1)]⟩, ⟨1, []⟩] 1 9 0).1.rank 1
        < (link 64 [⟨0, [(0, 1)]⟩, ⟨1, []⟩] 1 9 0).1.rank 0) ∧
    link 64 [⟨2 ^ 64 - 1, []⟩, ⟨0, []⟩] 0 9 1 = ([⟨2 ^ 64 - 1, [(9, 1)]⟩, ⟨0, []⟩], true) ∧
    ¬ ((link 64 [⟨2 ^ 64 - 1, []⟩, ⟨0, []⟩] 0 9 1).1.rank 0
        < (link 64 [⟨2 ^ 64 - 1, []⟩, ⟨0, []⟩] 0 9 1).1.rank 1) :=
  ⟨by decide, by decide, fun a => graph.rank_invariant_acyclic _ (by decide) a,
    graph.reach_diamond, by decide, by decide, by decide, by decide, by decide,
    by decide, by decide⟩

/-- C8, amended: for nodes `n` and `t` of a graph that satisfies the rank
invariant, `n` not reachable from `t` (the new edge closes no cycle) and
`n.rank` plus the number of nodes below `2 ^ w` (no rank overflows `rank_t`),
the call `n.link(owner, t)` finishes and afterwards: the targets of `n` are
the edge `(owner, t)` followed by the former targets, the targets of the other
nodes are unchanged; `t.rank > n.rank`; no rank is lower than before; `link`
returns `true` exactly when `t.rank ≤ n.rank` held before, which is exactly
when the rank of `t` was increased; every edge at least one of whose two ends
kept its rank satisfies the invariant; when all paths from `t` to the same
node have the same number of edges (the nodes reachable from `t` have levels
`d`, with `d b = d a + 1` on every edge `a → b`), the invariant holds again
for the whole graph; and the ranks remain values of `rank_t`. -/
theorem link_restores_rank_invariant (w : Nat) (g : graph) (n owner t : Nat)
    (hinv : g.rank_invariant = true) (hn : n < g.length) (ht : t < g.length)
    (hno : ¬ g.reach t n) (hw : g.rank n + g.length < 2 ^ w) :
    (link_pass w g n t).1.starved = false ∧
    (link w g n owner t).1.targets n = (owner, t) :: g.targets n ∧
    (∀ u, u ≠ n → (link w g n owner t).1.targets u = g.targets u) ∧
    (link w g n owner t).1.rank n < (link w g n owner t).1.rank t ∧
    (∀ u, g.rank u ≤ (link w g n owner t).1.rank u) ∧
    ((link w g n owner t).2 = true ↔ g.rank t ≤ g.rank n) ∧
    ((link w g n owner t).2 = true ↔ g.rank t < (link w g n owner t).1.rank t) ∧
    (∀ a e, e ∈ (link w g n owner t).1.targets a → e.2 < g.length →
      ((link w g n owner t).1.rank a = g.rank a ∨
        (link w g n owner t).1.rank e.2 = g.rank e.2) →
      (link w g n owner t).1.rank a < (link w g n owner t).1.rank e.2) ∧
    ((∃ d : Nat → Nat, ∀ a b, g.reach t a → g.edge a b → d b = d a + 1) →
      (link w g n owner t).1.rank_invariant = true) ∧
    (g.in_range w = true → (link w g n owner t).1.in_range w = true) := by
  have hspec := unbounded.link_spec g n owner t hinv hn ht hno
  rw [← link_pass_eq_unbounded w g n t hw, ← link_eq_unbounded w g n owner t hw] at hspec
  obtain ⟨h1, h2, h3, h4, h5, h6, h7, h8, h9⟩ := hspec
  exact ⟨h1, h2, h3, h4, h5, h6, h7, h8, h9, link_in_range w g n owner t⟩

/-- In the graph with nodes `0` (rank 5), `1` (rank 0), `2` (rank 1) and the
single edge `1 → 2`, node `0` cannot be reached from node `1`. -/
theorem graph.reach_example :
    ¬ graph.reach [⟨5, []⟩, ⟨0, [(0, 2)]⟩, ⟨1, []⟩] 1 0 := by
  have key : ∀ x, graph.reach [⟨5, []⟩, ⟨0, [(0, 2)]⟩, ⟨1, []⟩] 1 x → x = 1 ∨ x = 2 := by
    intro x hx
    induction hx with
    | refl => exact Or.inl rfl
    | tail _ hedge ih =>
      obtain ⟨o, ho⟩ := hedge
      rcases ih with rfl | rfl
      · simp [graph.targets] at ho
        exact Or.inr ho.2
      · simp [graph.targets] at ho
  intro h
  have := key 0 h
  omega

/-- In the same graph the number of a node is a level: the single edge is
`1 → 2`. -/
theorem graph.level_example (a b : Nat)
    (hedge : graph.edge [⟨5, []⟩, ⟨0, [(0, 2)]⟩, ⟨1, []⟩] a b) : b = a + 1 := by
  obtain ⟨o, ho⟩ := hedge
  rcases a with _ | _ | _ | a
  · simp [graph.targets] at ho
  · simp [graph.targets] at ho
    omega
  · simp [graph.targets] at ho
  · simp [graph.targets] at ho

theorem link_restores_rank_invariant_witness :
    (graph.rank_invariant [⟨5, []⟩, ⟨0, [(0, 2)]⟩, ⟨1, []⟩] = true ∧
     0 < List.length ([⟨5, []⟩, ⟨0, [(0, 2)]⟩, ⟨1, []⟩] : graph) ∧
     1 < List.length ([⟨5, []⟩, ⟨0, [(0, 2)]⟩, ⟨1, []⟩] : graph) ∧
     ¬ graph.reach [⟨5, []⟩, ⟨0, [(0, 2)]⟩, ⟨1, []⟩] 1 0 ∧
     graph.rank [⟨5, []⟩, ⟨0, [(0, 2)]⟩, ⟨1, []⟩] 0
       + List.length ([⟨5, []⟩, ⟨0, [(0, 2)]⟩, ⟨1, []⟩] : graph) < 2 ^ 64) ∧
    link 64 [⟨5, []⟩, ⟨0, [(0, 2)]⟩, ⟨1, []⟩] 0 9 1
      = ([⟨5, [(9, 1)]⟩, ⟨6, [(0, 2)]⟩, ⟨7, []⟩], true) ∧
    (link 64 [⟨5, []⟩, ⟨0, [(0, 2)]⟩, ⟨1, []⟩] 0 9 1).1.rank 0
      < (link 64 [⟨5, []⟩, ⟨0, [(0, 2)]⟩, ⟨1, []⟩] 0 9 1).1.rank 1 ∧
    (link 64 [⟨5, []⟩, ⟨0, [(0, 2)]⟩, ⟨1, []⟩] 0 9 1).1.rank_invariant = true :=
  ⟨⟨by decide, by decide, by decide, graph.reach_example, by decide⟩, by decide,
   (link_restores_rank_invariant 64 [⟨5, []⟩, ⟨0, [(0, 2)]⟩, ⟨1, []⟩] 0 9 1
      (by decide) (by decide) (by decide) graph.reach_example (by decide)).2.2.2.1,
   (link_restores_rank_invariant 64 [⟨5, []⟩, ⟨0, [(0, 2)]⟩, ⟨1, []⟩] 0 9 1
      (by decide) (by decide) (by decide) graph.reach_example (by decide)).2.2.2.2.2.2.2.2.1
      ⟨fun x => x, fun a b _ hedge => graph.level_example a b hedge⟩⟩

/-! ## The transaction scheduler -/

namespace transaction_impl

end transaction_impl

namespace transaction_impl

end transaction_impl

namespace transaction_impl

end transaction_impl

namespace transaction_impl

end transaction_impl

namespace transaction_impl

end transaction_impl

namespace transaction_impl

end transaction_impl

namespace transaction_impl

end transaction_impl

namespace transaction_impl

end transaction_impl

namespace transaction_impl

end transaction_impl

namespace transaction_impl

end transaction_impl

namespace transaction_impl

end transaction_impl

theorem events_append {A : Type} (xs ys : List (Nat × mark A)) :
    events (xs ++ ys) = events xs ++ events ys := by
  induction xs with
  | nil => rfl
  | cons m xs ih =>
    obtain ⟨u, m⟩ := m
    cases m <;> simp [events, ih]

theorem events_loop {A : Type} (t : Nat) (it : List A) :
    events ((it.flatMap fun a =>
      [mark.did (event.invoke a), mark.did (event.delete_cleanup a)]).map (Prod.mk t))
      = listen_impl_func.loop_events it := by
  induction it with
  | nil => rfl
  | cons a it ih =>
    simp only [List.flatMap_cons, List.map_append, events_append, ih,
      listen_impl_func.loop_events]
    rfl

namespace system

variable {C F A : Type}

theorem run_cons (ops : count_ops C) (t : Nat) (sched : List Nat) (s : system C F A) :
    run ops (t :: sched) s = run ops sched (step ops t s) := rfl

theorem goto_goto (t : Nat) (p1 p2 : pc A) (ms1 ms2 : List (mark A)) (s : system C F A) :
    goto t p2 ms2 (goto t p1 ms1 s) = goto t p2 (ms1 ++ ms2) s := by
  simp [goto, Function.update_idem]

/-- The loop of lines 83-86 run by caller `t` alone. -/
theorem run_loop (ops : count_ops C) (t : Nat) (it : List A) (s : system C F A)
    (hd : s.deleted = false) (hpc : s.pcs t = pc.l83 it) :
    run ops (List.replicate (it.length + 1) t) s =
      goto t pc.l87
        (it.flatMap fun a => [mark.did (event.invoke a), mark.did (event.delete_cleanup a)])
        s := by
  induction it generalizing s with
  | nil =>
    have hstep : step ops t s = goto t pc.l87 [] s := by
      simp only [step, hd, hpc, Bool.false_eq_true, if_false]
    exact hstep
  | cons a it ih =>
    rw [List.length_cons, List.replicate_succ, run_cons]
    have hstep : step ops t s = goto t (pc.l83 it)
        [mark.did (event.invoke a), mark.did (event.delete_cleanup a)] s := by
      simp only [step, hd, hpc, Bool.false_eq_true, if_false]
    rw [hstep, ih _ (by simp [hd]) (by simp), goto_goto]
    simp [List.flatMap_cons]

end system

namespace system

variable {C F A : Type}

theorem step_l80 (ops : count_ops C) (t : Nat) (s : system C F A)
    (hd : s.deleted = false) (hpc : s.pcs t = pc.l80) :
    step ops t s =
      if s.func.isSome && !ops.active s.counts then goto t pc.l81 [mark.test true] s
      else goto t pc.l93 [mark.test false] s := by
  simp only [step, hd, hpc, Bool.false_eq_true, if_false]

theorem step_l81 (ops : count_ops C) (t : Nat) (s : system C F A)
    (hd : s.deleted = false) (hpc : s.pcs t = pc.l81) :
    step ops t s = goto t pc.l82 [mark.did event.inc_strong]
      { s with counts := ops.inc_strong s.counts } := by
  simp only [step, hd, hpc, Bool.false_eq_true, if_false]

theorem step_l82 (ops : count_ops C) (t : Nat) (s : system C F A)
    (hd : s.deleted = false) (hpc : s.pcs t = pc.l82) :
    step ops t s = goto t (pc.l83 s.cleanups) [mark.did event.unlock]
      { s with locked := false } := by
  simp only [step, hd, hpc, Bool.false_eq_true, if_false]

theorem step_l87 (ops : count_ops C) (t : Nat) (s : system C F A)
    (hd : s.deleted = false) (hpc : s.pcs t = pc.l87) :
    step ops t s = goto t pc.l88 [mark.did event.clear_cleanups]
      { s with cleanups := [] } := by
  simp only [step, hd, hpc, Bool.false_eq_true, if_false]

theorem step_l88 (ops : count_ops C) (t : Nat) (s : system C F A)
    (hd : s.deleted = false) (hpc : s.pcs t = pc.l88) :
    step ops t s = goto t pc.l89 [mark.did event.delete_func] s := by
  simp only [step, hd, hpc, Bool.false_eq_true, if_false]

theorem step_at_l89 (ops : count_ops C) (t : Nat) (s : system C F A)
    (hd : s.deleted = false) (hpc : s.pcs t = pc.l89) :
    step ops t s = goto t pc.l90 [] { s with func := none } := by
  simp only [step, hd, hpc, Bool.false_eq_true, if_false]

theorem step_l90 (ops : count_ops C) (t : Nat) (s : system C F A)
    (hd : s.deleted = false) (hpc : s.pcs t = pc.l90) (hl : s.locked = false) :
    step ops t s = goto t pc.l91 [mark.did event.lock] { s with locked := true } := by
  simp only [step, hd, hpc, hl, Bool.false_eq_true, if_false]

theorem step_l91 (ops : count_ops C) (t : Nat) (s : system C F A)
    (hd : s.deleted = false) (hpc : s.pcs t = pc.l91) :
    step ops t s = goto t pc.l93 [mark.did event.dec_strong]
      { s with counts := ops.dec_strong s.counts } := by
  simp only [step, hd, hpc, Bool.false_eq_true, if_false]

theorem step_l93 (ops : count_ops C) (t : Nat) (s : system C F A)
    (hd : s.deleted = false) (hpc : s.pcs t = pc.l93) :
    step ops t s =
      if !ops.alive s.counts then goto t pc.l94 [] s else goto t pc.l98 [] s := by
  simp only [step, hd, hpc, Bool.false_eq_true, if_false]

theorem step_l94 (ops : count_ops C) (t : Nat) (s : system C F A)
    (hd : s.deleted = false) (hpc : s.pcs t = pc.l94) :
    step ops t s = goto t pc.l95 [mark.did event.unlock] { s with locked := false } := by
  simp only [step, hd, hpc, Bool.false_eq_true, if_false]

theorem step_l95 (ops : count_ops C) (t : Nat) (s : system C F A)
    (hd : s.deleted = false) (hpc : s.pcs t = pc.l95) :
    step ops t s = goto t pc.idle [mark.did event.delete_this]
      { s with deleted := true } := by
  simp only [step, hd, hpc, Bool.false_eq_true, if_false]

theorem step_l98 (ops : count_ops C) (t : Nat) (s : system C F A)
    (hd : s.deleted = false) (hpc : s.pcs t = pc.l98) :
    step ops t s = goto t pc.idle [mark.did event.unlock] { s with locked := false } := by
  simp only [step, hd, hpc, Bool.false_eq_true, if_false]

/-- The end of a call by a caller alone: lines 93-98. -/
theorem run_release (ops : count_ops C) (t : Nat) (s : system C F A)
    (hd : s.deleted = false) (hpc : s.pcs t = pc.l93) :
    ∃ k, run ops (List.replicate k t) s =
      goto t pc.idle
        (mark.did event.unlock ::
          if ops.alive s.counts then [] else [mark.did event.delete_this])
        { s with locked := false, deleted := !ops.alive s.counts } := by
  cases hal : ops.alive s.counts
  · refine ⟨3, ?_⟩
    show run ops [t, t, t] s = _
    rw [run_cons, step_l93 ops t s hd hpc]
    simp only [hal, Bool.not_false, if_true]
    rw [run_cons, step_l94 ops t _ (by simp [hd]) (by simp), run_cons,
      step_l95 ops t _ (by simp [hd]) (by simp)]
    simp [goto, Function.update_idem, run]
  · refine ⟨2, ?_⟩
    show run ops [t, t] s = _
    rw [run_cons, step_l93 ops t s hd hpc]
    simp only [hal, Bool.not_true, Bool.false_eq_true, if_false]
    rw [run_cons, step_l98 ops t _ (by simp [hd]) (by simp)]
    simp [goto, Function.update_idem, run, hd]

end system
namespace system

variable {C F A : Type}

/-- The body of the first `if` run by a caller alone: lines 80-91. -/
theorem run_body (ops : count_ops C) (t : Nat) (s : system C F A)
    (hd : s.deleted = false) (hpc : s.pcs t = pc.l80)
    (hg : (s.func.isSome && !ops.active s.counts) = true) :
    ∃ k, run ops (List.replicate k t) s =
      goto t pc.l93
        ([mark.test true, mark.did event.inc_strong, mark.did event.unlock] ++
          (s.cleanups.flatMap fun a =>
            [mark.did (event.invoke a), mark.did (event.delete_cleanup a)]) ++
          [mark.did event.clear_cleanups, mark.did event.delete_func, mark.did event.lock,
            mark.did event.dec_strong])
        { s with counts := ops.dec_strong (ops.inc_strong s.counts), func := none,
                 cleanups := [], locked := true } := by
  refine ⟨3 + ((s.cleanups.length + 1) + 5), ?_⟩
  rw [List.replicate_add, List.replicate_add, run_append, run_append]
  have h3 : run ops (List.replicate 3 t) s =
      goto t (pc.l83 s.cleanups)
        [mark.test true, mark.did event.inc_strong, mark.did event.unlock]
        { s with counts := ops.inc_strong s.counts, locked := false } := by
    show run ops [t, t, t] s = _
    rw [run_cons, step_l80 ops t s hd hpc]
    simp only [hg, if_true]
    rw [run_cons, step_l81 ops t _ (by simp [hd]) (by simp), run_cons,
      step_l82 ops t _ (by simp [hd]) (by simp)]
    simp [goto, Function.update_idem, run]
  rw [h3, run_loop ops t s.cleanups _ (by simp [hd]) (by simp), goto_goto]
  show run ops [t, t, t, t, t] _ = _
  rw [run_cons, step_l87 ops t _ (by simp [hd]) (by simp), run_cons,
    step_l88 ops t _ (by simp [hd]) (by simp), run_cons,
    step_at_l89 ops t _ (by simp [hd]) (by simp), run_cons,
    step_l90 ops t _ (by simp [hd]) (by simp) (by simp), run_cons,
    step_l91 ops t _ (by simp [hd]) (by simp)]
  simp [goto, Function.update_idem, run]

/-- A caller alone, from the entry to the return: the handle, the lock and
the events are those of `update_and_unlock`. -/
theorem solo_call (ops : count_ops C) (c : C) (f : Option F) (cs : List A) :
    ∃ k : Nat,
      (run ops (List.replicate k 0) (entered c f cs)).pcs 0 = pc.idle ∧
      (run ops (List.replicate k 0) (entered c f cs)).counts
        = (listen_impl_func.update_and_unlock ops (listen_impl_func.entry c f cs)).counts ∧
      (run ops (List.replicate k 0) (entered c f cs)).func
        = (listen_impl_func.update_and_unlock ops (listen_impl_func.entry c f cs)).func ∧
      (run ops (List.replicate k 0) (entered c f cs)).cleanups
        = (listen_impl_func.update_and_unlock ops (listen_impl_func.entry c f cs)).cleanups ∧
      (run ops (List.replicate k 0) (entered c f cs)).locked
        = (listen_impl_func.update_and_unlock ops (listen_impl_func.entry c f cs)).locked ∧
      (run ops (List.replicate k 0) (entered c f cs)).deleted
        = (listen_impl_func.update_and_unlock ops (listen_impl_func.entry c f cs)).deleted ∧
      events (run ops (List.replicate k 0) (entered c f cs)).log
        = (listen_impl_func.update_and_unlock ops (listen_impl_func.entry c f cs)).log := by
  have hpc : (entered c f cs : system C F A).pcs 0 = pc.l80 := by simp [entered]
  cases hg : (f.isSome && !ops.active c)
  · -- the test of line 80 fails
    have hg' : listen_impl_func.guard ops (listen_impl_func.entry c f cs : listen_impl_func C F A)
        = false := hg
    have h1 : run ops (List.replicate 1 0) (entered c f cs) =
        goto 0 pc.l93 [mark.test false] (entered c f cs : system C F A) := by
      show step ops 0 (entered c f cs) = _
      rw [step_l80 ops 0 _ rfl hpc]
      have : ((entered c f cs : system C F A).func.isSome
          && !ops.active (entered c f cs : system C F A).counts) = false := hg
      simp only [this, Bool.false_eq_true, if_false]
    obtain ⟨k, hk⟩ := run_release ops 0
      (goto 0 pc.l93 [mark.test false] (entered c f cs : system C F A)) rfl (by simp)
    have hbig : listen_impl_func.update_and_unlock ops
        (listen_impl_func.entry c f cs : listen_impl_func C F A)
        = listen_impl_func.release ops (listen_impl_func.entry c f cs) := by
      rw [listen_impl_func.update_and_unlock, listen_impl_func.cleanup_step, hg']
      rfl
    refine ⟨1 + k, ?_⟩
    rw [List.replicate_add, run_append, h1, hk, hbig, listen_impl_func.release_eq]
    cases hal : ops.alive c <;>
      simp [listen_impl_func.entry, entered, events, hal, goto]
  · -- the test of line 80 succeeds
    have hg' : listen_impl_func.guard ops (listen_impl_func.entry c f cs : listen_impl_func C F A)
        = true := hg
    obtain ⟨k1, hk1⟩ := run_body ops 0 (entered c f cs : system C F A) rfl hpc hg
    obtain ⟨k2, hk2⟩ := run_release ops 0
      (goto 0 pc.l93
        ([mark.test true, mark.did event.inc_strong, mark.did event.unlock] ++
          ((entered c f cs : system C F A).cleanups.flatMap fun a =>
            [mark.did (event.invoke a), mark.did (event.delete_cleanup a)]) ++
          [mark.did event.clear_cleanups, mark.did event.delete_func, mark.did event.lock,
            mark.did event.dec_strong])
        { (entered c f cs : system C F A) with
          counts := ops.dec_strong (ops.inc_strong (entered c f cs : system C F A).counts),
          func := none, cleanups := [], locked := true }) rfl (by simp)
    have hbig : listen_impl_func.update_and_unlock ops
        (listen_impl_func.entry c f cs : listen_impl_func C F A)
        = listen_impl_func.release ops
            (listen_impl_func.cleanup_body ops (listen_impl_func.entry c f cs)) := by
      rw [listen_impl_func.update_and_unlock, listen_impl_func.cleanup_step, hg']
      rfl
    refine ⟨k1 + k2, ?_⟩
    rw [List.replicate_add, run_append, hk1, hk2, hbig, listen_impl_func.release_eq,
      listen_impl_func.cleanup_body_eq]
    cases hal : ops.alive (ops.dec_strong (ops.inc_strong c)) <;>
      simp [listen_impl_func.entry, entered, events, events_append, events_loop, hal, goto]

end system

end impl
end sodium
